import Mathlib

/-!
A shallow embedding of `lettermixer.py` (the letter-mixer "weasel" evolver).

Strings are `List Char`, indexed reads are `List.getD` (out-of-range reads
default to the separator `' '`, matching the fact that every real access in
the source is bounds-guarded).  Randomness is made explicit: each call site
of the Python `random` module becomes an oracle function argument, and the
theorems quantify over all oracles, i.e. over every possible sequence of
random draws.  In particular `random.random() < rate` comparisons become a
`Bool`-valued oracle (so the numeric rate itself disappears from the model),
`random.shuffle(candidates)` becomes an arbitrary permutation of the
candidate list, and `random.choice(LETTER_ALPHABET)` becomes an oracle that
yields members of the alphabet.
-/

namespace LetterMixer

/-- The lowercase alphabet constant `LETTER_ALPHABET` of the source. -/
def LETTER_ALPHABET : List Char := "abcdefghijklmnopqrstuvwxyz".toList

/-- The separator constant `SPACE_CHAR` of the source. -/
def SPACE_CHAR : Char := ' '

/-- The character class `[a-z]` of the run regexes in
`find_word_matches` and `all_tokens_valid`. -/
def azB (c : Char) : Bool := decide ('a' ≤ c) && decide (c ≤ 'z')

/-- Non-separator test (a cell that is not the space character). -/
def nonSepB (c : Char) : Bool := !(c == ' ')

/-- `leftRun s i` counts the consecutive non-separator cells at positions
`i-1, i-2, ...` down to the previous separator or the start of the string.
This is the `while j >= 0 and chars[j] != SPACE_CHAR` countdown loop that
`mutate_once` (for `lcount`), `can_place_space_at` and `build_initial_string`
(for `left_since_space`) all perform. -/
def leftRun (s : List Char) : Nat → Nat
  | 0 => 0
  | j + 1 => if s.getD j ' ' = ' ' then 0 else leftRun s j + 1

/-- Length of the non-separator prefix of a list. -/
def frontRunLen : List Char → Nat
  | [] => 0
  | c :: rest => if c = ' ' then 0 else frontRunLen rest + 1

/-- `rightRun s k` counts the consecutive non-separator cells at positions
`k, k+1, ...` up to the next separator or the end of the string; this is the
`while k < n and chars[k] != SPACE_CHAR` upward loop of `mutate_once`
(started at `k = i + 1`). -/
def rightRun (s : List Char) (k : Nat) : Nat := frontRunLen (s.drop k)

/-- The acceptance test that the separator candidate must pass inside
`mutate_once` (lines 213-255 of the source): not a leading/trailing
position, no adjacent separator, at least `mb` letters on each side up to
the neighbouring separators, and no frozen cell inside either of those two
letter runs (the two `while ... if frozen[j]: break` scans run over exactly
the cells that the `lcount`/`rcount` loops visited). -/
def spaceOk (chars : List Char) (frozen : List Bool) (mb i : Nat) : Bool :=
  !(i == 0 || i == chars.length - 1) &&
  !(chars.getD (i - 1) ' ' == ' ' || chars.getD (i + 1) ' ' == ' ') &&
  (decide (mb ≤ leftRun chars i) && decide (mb ≤ rightRun chars (i + 1))) &&
  ((List.range' (i - leftRun chars i) (leftRun chars i)).all fun j => !frozen.getD j false) &&
  ((List.range' (i + 1) (rightRun chars (i + 1))).all fun j => !frozen.getD j false)

/-- The `for cand in candidates` loop of `mutate_once`: the first candidate
that is accepted is returned; a letter is accepted unconditionally, the
separator must pass `spaceOk`.  The `attempts > 40` cap is modelled by the
caller handing over only the first forty candidates. -/
def pickFirst (chars : List Char) (frozen : List Bool) (mb i : Nat) : List Char → Option Char
  | [] => none
  | c :: rest =>
    if c = ' ' then
      if spaceOk chars frozen mb i then some ' ' else pickFirst chars frozen mb i rest
    else some c

/-- `list(LETTER_ALPHABET) + [SPACE_CHAR]`, the candidate pool that
`mutate_once` shuffles. -/
def mutationCandidates : List Char := LETTER_ALPHABET ++ [SPACE_CHAR]

/-- The body of the `for i in range(n)` loop of `mutate_once` at position
`i`: skip frozen cells, skip cells whose per-cell draw does not trigger,
otherwise commit the first accepted candidate of the shuffled pool
(`shuffle i`), falling back to a random letter (`fb i`) when no candidate
was accepted within the 40-attempt cap. -/
def mutateStep (frozen : List Bool) (mb : Nat) (trigger : Nat → Bool)
    (shuffle : Nat → List Char) (fb : Nat → Char) (chars : List Char) (i : Nat) : List Char :=
  if frozen.getD i false then chars
  else if !trigger i then chars
  else
    match pickFirst chars frozen mb i ((shuffle i).take 40) with
    | some c => chars.set i c
    | none => chars.set i (fb i)

/-- `mutate_once(s, frozen, word_id, min_block, mutrate)`.  `word_id` is
taken but never read, exactly as in the source.  `trigger i` models the
per-cell draw `random.random() < mutrate`, `shuffle i` the shuffled
candidate list at cell `i`, `fb i` the fallback `random.choice`. -/
def mutate_once (s : List Char) (frozen : List Bool) (word_id : List (Option Nat))
    (mb : Nat) (trigger : Nat → Bool) (shuffle : Nat → List Char) (fb : Nat → Char) :
    List Char :=
  (List.range s.length).foldl (mutateStep frozen mb trigger shuffle fb) s

/-- `IsMaxRun p s a b`: the half-open interval `[a, b)` is a maximal run of
`p`-characters of `s` — nonempty, within bounds, all its cells satisfy `p`,
and it can be extended on neither side.  (Out-of-range reads default to
`' '`, which fails both character classes in use, so the right-edge
condition also covers `b = s.length`.)  For `p = azB` these are exactly the
spans the regex `[a-z]{m,}` of the source matches, before the length
filter. -/
def IsMaxRun (p : Char → Bool) (s : List Char) (a b : Nat) : Prop :=
  a < b ∧ b ≤ s.length ∧ (∀ j, a ≤ j → j < b → p (s.getD j ' ') = true) ∧
  (a = 0 ∨ p (s.getD (a - 1) ' ') = false) ∧ p (s.getD b ' ') = false

/-- Executable test for `IsMaxRun`. -/
def isMaxRunB (p : Char → Bool) (s : List Char) (a b : Nat) : Bool :=
  decide (a < b) && decide (b ≤ s.length) &&
  ((List.range' a (b - a)).all fun j => p (s.getD j ' ')) &&
  (a == 0 || !p (s.getD (a - 1) ' ')) && !p (s.getD b ' ')

/-- All maximal `p`-runs of length at least `mb`, listed by ascending start
position — the matches of `re.finditer(r'[a-z]{mb,}', s)` for `p = azB`
(each start position has at most one maximal run, so the enumeration order
is the regex scan order). -/
def candidateRuns (p : Char → Bool) (s : List Char) (mb : Nat) : List (Nat × Nat) :=
  (List.range (s.length + 1)).flatMap fun a =>
    (List.range (s.length + 1)).filterMap fun b =>
      if isMaxRunB p s a b && decide (mb ≤ b - a) then some (a, b) else none

/-- The text `m.group()` of a run `[a, b)`. -/
def tokenOf (s : List Char) (a b : Nat) : List Char :=
  (List.range' a (b - a)).map fun j => s.getD j ' '

/-- The `left_ok`/`right_ok` boundary test of `find_word_matches`: each end
of the run is the corresponding end of the string or a separator cell. -/
def boundedOkB (s : List Char) (a b : Nat) : Bool :=
  (a == 0 || s.getD (a - 1) ' ' == ' ') && (b == s.length || s.getD b ' ' == ' ')

/-- A match triple `(start, end, token)`. -/
abbrev WMatch := Nat × Nat × List Char

/-- The candidate matches of `find_word_matches` before sorting: bounded
maximal `[a-z]`-runs of length at least `mb` whose token belongs to the
word set. -/
def matchCandidates (s : List Char) (ws : List (List Char)) (mb : Nat) : List WMatch :=
  (candidateRuns azB s mb).filterMap fun ab =>
    if boundedOkB s ab.1 ab.2 && decide (tokenOf s ab.1 ab.2 ∈ ws) then
      some (ab.1, ab.2, tokenOf s ab.1 ab.2)
    else none

/-- The sort key comparison `key=lambda t: (-(t[1]-t[0]), t[0])`: longer
matches first, ties broken by ascending start. -/
def matchLE (m1 m2 : WMatch) : Bool :=
  decide (m2.2.1 - m2.1 < m1.2.1 - m1.1) ||
  (decide (m1.2.1 - m1.1 = m2.2.1 - m2.1) && decide (m1.1 ≤ m2.1))

/-- `matchLE` as a relation, for the sort. -/
def matchRel (m1 m2 : WMatch) : Prop := matchLE m1 m2 = true

instance : DecidableRel matchRel := fun m1 m2 => inferInstanceAs (Decidable (_ = true))

instance : IsTotal WMatch matchRel :=
  ⟨fun a b => by
    unfold matchRel matchLE
    simp only [Bool.or_eq_true, Bool.and_eq_true, decide_eq_true_eq]
    omega⟩

instance : IsTrans WMatch matchRel :=
  ⟨fun a b c hab hbc => by
    unfold matchRel matchLE at hab hbc ⊢
    simp only [Bool.or_eq_true, Bool.and_eq_true, decide_eq_true_eq] at hab hbc ⊢
    omega⟩

/-- `matches.sort(key=...)`: a stable sort under `matchRel`.  Distinct
maximal runs have distinct starts, hence distinct keys, so the stable-sorted
list is the unique list ordered by the key and any stable sort is faithful
to CPython's. -/
def sortMatches (l : List WMatch) : List WMatch := List.insertionSort matchRel l

/-- `any(occ[i] for i in range(start, end))`: does the span of `m` contain a
cell already claimed by `c`? -/
def spanOverlapB (c m : WMatch) : Bool :=
  (List.range' m.1 (m.2.1 - m.1)).any fun j => decide (c.1 ≤ j) && decide (j < c.2.1)

/-- The greedy keep-if-disjoint pass over the sorted candidates (`chosen`
and the `occ` occupancy array of the source; `occ` holds exactly the cells
of the spans of `chosen`). -/
def greedySelect : List WMatch → List WMatch → List WMatch
  | [], chosen => chosen
  | m :: rest, chosen =>
    if chosen.any (fun c => spanOverlapB c m) then greedySelect rest chosen
    else greedySelect rest (chosen ++ [m])

/-- `find_word_matches(s, wordset, min_block)`. -/
def find_word_matches (s : List Char) (ws : List (List Char)) (mb : Nat) : List WMatch :=
  greedySelect (sortMatches (matchCandidates s ws mb)) []

/-- Set `frozen[i] = True` and `word_id[i] = wid` for every `i` in `idxs`
(out-of-range writes are dropped, matching the bounds guards of the
source). -/
def freezeCells (wid : Nat) (idxs : List Nat) (st : List Bool × List (Option Nat)) :
    List Bool × List (Option Nat) :=
  idxs.foldl (fun st2 i => (st2.1.set i true, st2.2.set i (some wid))) st

/-- Freeze the separator directly before the start of `m`, if the start has
a predecessor and that predecessor is a separator (`if start - 1 >= 0 and
s[start - 1] == SPACE_CHAR`). -/
def freezeBefore (s : List Char) (wid : Nat) (m : WMatch)
    (st : List Bool × List (Option Nat)) : List Bool × List (Option Nat) :=
  if 1 ≤ m.1 ∧ s.getD (m.1 - 1) ' ' = ' ' then freezeCells wid [m.1 - 1] st else st

/-- Freeze the separator directly after the end of `m`, if the end is inside
the string and is a separator (`if end < n and s[end] == SPACE_CHAR`). -/
def freezeAfter (s : List Char) (wid : Nat) (m : WMatch)
    (st : List Bool × List (Option Nat)) : List Bool × List (Option Nat) :=
  if m.2.1 < s.length ∧ s.getD m.2.1 ' ' = ' ' then freezeCells wid [m.2.1] st else st

/-- The body of the `for wid, (start, end, tok) in enumerate(matches)` loop
of `freeze_flags_with_adjacent_spaces`: freeze the span, then the separator
directly before the word (if it exists and is a separator), then the one
directly after it. -/
def freezeOne (s : List Char) (wid : Nat) (m : WMatch) (st : List Bool × List (Option Nat)) :
    List Bool × List (Option Nat) :=
  freezeAfter s wid m
    (freezeBefore s wid m (freezeCells wid (List.range' m.1 (m.2.1 - m.1)) st))

/-- The enumerated loop of `freeze_flags_with_adjacent_spaces`, with `wid`
the index of the next match. -/
def freezeFrom (s : List Char) : Nat → List WMatch → List Bool × List (Option Nat) →
    List Bool × List (Option Nat)
  | _, [], st => st
  | wid, m :: rest, st => freezeFrom s (wid + 1) rest (freezeOne s wid m st)

/-- `freeze_flags_with_adjacent_spaces(s, frozen, word_id, matches)`. -/
def freeze_flags_with_adjacent_spaces (s : List Char) (frozen : List Bool)
    (word_id : List (Option Nat)) (ms : List WMatch) : List Bool × List (Option Nat) :=
  freezeFrom s 0 ms (frozen, word_id)

/-- `all_tokens_valid(s, wordset, min_block)`: `re.findall` yields the
tokens of all maximal `[a-z]`-runs of length at least `mb`; the sequence is
valid when there is at least one and all of them are dictionary words. -/
def all_tokens_valid (s : List Char) (ws : List (List Char)) (mb : Nat) : Bool :=
  let toks := (candidateRuns azB s mb).map fun ab => tokenOf s ab.1 ab.2
  !toks.isEmpty && toks.all fun t => decide (t ∈ ws)

/-- One iteration of the `while len(chars) < n` loop of
`build_initial_string`: the first cell is always a letter; afterwards a
separator may be placed only when at least `mb` letters precede it and at
least `mb` cells remain after it, and the coin `spaceDraw` (modelling
`random.random() < space_prob`) decides; otherwise a letter is appended.
The letter and coin oracles are indexed by the position being filled. -/
def buildStep (n mb : Nat) (letters : Nat → Char) (spaceDraw : Nat → Bool)
    (chars : List Char) : List Char :=
  if chars.length = 0 then chars ++ [letters 0]
  else
    if (decide (mb ≤ leftRun chars chars.length) && decide (mb ≤ n - chars.length - 1)) &&
        spaceDraw chars.length then
      chars ++ [SPACE_CHAR]
    else chars ++ [letters chars.length]

/-- The construction loop; each iteration appends exactly one cell, so fuel
`n` starting from the empty list runs it to completion. -/
def buildLoop (n mb : Nat) (letters : Nat → Char) (spaceDraw : Nat → Bool) :
    Nat → List Char → List Char
  | 0, chars => chars
  | fuel + 1, chars =>
    if chars.length < n then
      buildLoop n mb letters spaceDraw fuel (buildStep n mb letters spaceDraw chars)
    else chars

/-- The tail fixup of `build_initial_string`: if the last cell is a
separator, replace it with a random letter; then `''.join(chars[:n])`. -/
def buildFinish (n : Nat) (letters : Nat → Char) (cs : List Char) : List Char :=
  (if cs.getD (cs.length - 1) 'a' = ' ' then cs.set (cs.length - 1) (letters n) else cs).take n

/-- `build_initial_string(n, min_block, space_prob)`: run the loop, replace
a trailing separator by a letter, and truncate to `n`. -/
def build_initial_string (n mb : Nat) (letters : Nat → Char) (spaceDraw : Nat → Bool) :
    List Char :=
  buildFinish n letters (buildLoop n mb letters spaceDraw n [])

/-- Loop invariant of `build_initial_string`'s construction loop: the built
prefix starts with a letter, has no adjacent separators, and every
separator so far has at least `mb` letters directly before it and at least
`mb` positions after it within the target length `n`. -/
def BuildInv (n mb : Nat) (chars : List Char) : Prop :=
  (0 < chars.length → chars.getD 0 ' ' ≠ ' ') ∧
  (∀ p, p + 1 < chars.length → ¬(chars.getD p ' ' = ' ' ∧ chars.getD (p + 1) ' ' = ' ')) ∧
  (∀ p, p < chars.length → chars.getD p ' ' = ' ' →
    mb ≤ leftRun chars p ∧ mb + p + 1 ≤ n)

/-! ### The structural invariants of the specification, as executable checks -/

/-- Invariant 1a: the leading cell is not a separator. -/
def noLeadingSepB (s : List Char) : Bool := s.length == 0 || !(s.getD 0 ' ' == ' ')

/-- Invariant 1b: the trailing cell is not a separator. -/
def noTrailingSepB (s : List Char) : Bool :=
  s.length == 0 || !(s.getD (s.length - 1) ' ' == ' ')

/-- Invariant 2: no two adjacent cells are both separators. -/
def noAdjSepB (s : List Char) : Bool :=
  (List.range (s.length - 1)).all fun i => !(s.getD i ' ' == ' ' && s.getD (i + 1) ' ' == ' ')

/-- Invariant 3: every maximal non-separator run has length at least `mb`. -/
def minRunOkB (mb : Nat) (s : List Char) : Bool :=
  (List.range (s.length + 1)).all fun a => (List.range (s.length + 1)).all fun b =>
    !isMaxRunB nonSepB s a b || decide (mb ≤ b - a)

/-- All three structural invariants together. -/
def validSeqB (mb : Nat) (s : List Char) : Bool :=
  noLeadingSepB s && noTrailingSepB s && noAdjSepB s && minRunOkB mb s

/-! ### Propositional forms of the invariants (used inside the proofs) -/

def NoLeadSep (s : List Char) : Prop := 0 < s.length → s.getD 0 ' ' ≠ ' '

def NoTrailSep (s : List Char) : Prop := 0 < s.length → s.getD (s.length - 1) ' ' ≠ ' '

def NoAdjSep (s : List Char) : Prop :=
  ∀ i, i + 1 < s.length → ¬(s.getD i ' ' = ' ' ∧ s.getD (i + 1) ' ' = ' ')

def MinRunOk (mb : Nat) (s : List Char) : Prop :=
  ∀ a b, IsMaxRun nonSepB s a b → mb ≤ b - a

def StructOk (mb : Nat) (s : List Char) : Prop :=
  NoLeadSep s ∧ NoTrailSep s ∧ NoAdjSep s ∧ MinRunOk mb s

/-! ### Notions used by the lock-tracking claims -/

/-- Two match spans share no cell: `[a1, b1)` ends before `[a2, b2)` starts
or vice versa. -/
def spanDisjoint (m1 m2 : WMatch) : Prop := m1.2.1 ≤ m2.1 ∨ m2.2.1 ≤ m1.1

instance (m1 m2 : WMatch) : Decidable (spanDisjoint m1 m2) := by
  unfold spanDisjoint
  infer_instance

/-- Two match spans share a cell. -/
def sharesCell (m1 m2 : WMatch) : Prop :=
  ∃ j, m1.1 ≤ j ∧ j < m1.2.1 ∧ m2.1 ≤ j ∧ j < m2.2.1

/-- Cell `i` is written by the `freeze_flags_with_adjacent_spaces` pass for
match `m`: it lies in the span, or it is the cell directly before the start
or directly after the end and holds a separator. -/
def touchIdx (s : List Char) (m : WMatch) (i : Nat) : Prop :=
  (m.1 ≤ i ∧ i < m.2.1) ∨
  ((i + 1 = m.1 ∨ m.2.1 = i) ∧ i < s.length ∧ s.getD i ' ' = ' ')

instance (s : List Char) (m : WMatch) (i : Nat) : Decidable (touchIdx s m i) := by
  unfold touchIdx
  infer_instance

/-- Cell `i` is directly adjacent to the span of `m`: directly before its
start or directly after its end. -/
def adjTouch (m : WMatch) (i : Nat) : Prop := i + 1 = m.1 ∨ m.2.1 = i

instance (m : WMatch) (i : Nat) : Decidable (adjTouch m i) := by
  unfold adjTouch
  infer_instance

/-! ### Concrete fixtures from the specification's worked example -/

def catL : List Char := "cat".toList
def dogL : List Char := "dog".toList
def catdogL : List Char := "cat dog".toList
def wsCD : List (List Char) := [catL, dogL]
def abcL : List Char := "abc".toList

/-! ## Helper lemmas: indexed reads -/

theorem getD_of_length_le {α : Type} {l : List α} {i : Nat} (h : l.length ≤ i) (d : α) :
    l.getD i d = d := by
  simp [List.getD_eq_getElem?_getD, List.getElem?_eq_none h]

theorem getD_set {α : Type} (l : List α) (i j : Nat) (c d : α) :
    (l.set i c).getD j d = if j = i ∧ j < l.length then c else l.getD j d := by
  simp only [List.getD_eq_getElem?_getD, List.getElem?_set]
  by_cases hij : i = j
  · subst hij
    by_cases hl : i < l.length
    · simp [hl]
    · simp [hl, List.getElem?_eq_none (by omega : l.length ≤ i)]
  · have : ¬(j = i ∧ j < l.length) := fun h => hij h.1.symm
    simp [hij, this]

theorem getD_append_one {α : Type} (l : List α) (c : α) (j : Nat) (d : α) :
    (l ++ [c]).getD j d =
      if j < l.length then l.getD j d else if j = l.length then c else d := by
  simp only [List.getD_eq_getElem?_getD, List.getElem?_append]
  by_cases hl : j < l.length
  · simp [hl]
  · have hnot : ¬ j < l.length := hl
    by_cases he : j = l.length
    · subst he
      simp [List.getElem?_eq_none (le_refl _)]
    · have h2 : 1 ≤ j - l.length := by omega
      simp [hnot, he, List.getElem?_eq_none (show ([c].length ≤ j - l.length) by simpa using h2),
        List.getElem?_eq_none (show l.length ≤ j by omega)]

theorem getD_replicate {α : Type} (n : Nat) (x : α) (i : Nat) (d : α) :
    (List.replicate n x).getD i d = if i < n then x else d := by
  simp only [List.getD_eq_getElem?_getD, List.getElem?_replicate]
  by_cases h : i < n <;> simp [h]

/-! ## Helper lemmas: character classes -/

theorem nonSepB_eq_true {c : Char} : nonSepB c = true ↔ c ≠ ' ' := by
  simp [nonSepB]

theorem nonSepB_eq_false {c : Char} : nonSepB c = false ↔ c = ' ' := by
  simp [nonSepB]

theorem azB_space : azB ' ' = false := by decide

theorem azB_ne_space {c : Char} (h : azB c = true) : c ≠ ' ' := by
  intro hc
  subst hc
  exact absurd h (by decide)

theorem alphabet_nonspace {c : Char} (h : c ∈ LETTER_ALPHABET) : c ≠ ' ' := by
  fin_cases h <;> decide

/-! ## Helper lemmas: run counting -/

theorem leftRun_eq_of (s : List Char) (a : Nat)
    (hleft : a = 0 ∨ s.getD (a - 1) ' ' = ' ') :
    ∀ i, a ≤ i → (∀ j, a ≤ j → j < i → s.getD j ' ' ≠ ' ') → leftRun s i = i - a := by
  intro i
  induction i with
  | zero => intro hai _; simp [leftRun]
  | succ j ih =>
    intro hai hbody
    by_cases haj : a = j + 1
    · subst haj
      rcases hleft with h0 | hsep
      · omega
      · simp only [Nat.add_sub_cancel] at hsep
        show (if s.getD j ' ' = ' ' then 0 else leftRun s j + 1) = j + 1 - (j + 1)
        rw [if_pos hsep]
        omega
    · have haj2 : a ≤ j := by omega
      have hne : s.getD j ' ' ≠ ' ' := hbody j haj2 (by omega)
      simp only [leftRun, if_neg hne]
      rw [ih haj2 (fun k hk1 hk2 => hbody k hk1 (by omega))]
      omega

theorem rightRun_eq_of (s : List Char) :
    ∀ (d k : Nat), (∀ j, k ≤ j → j < k + d → s.getD j ' ' ≠ ' ') →
      s.getD (k + d) ' ' = ' ' → rightRun s k = d := by
  intro d
  induction d with
  | zero =>
    intro k _ hend
    unfold rightRun
    by_cases hk : k < s.length
    · rw [List.drop_eq_getElem_cons hk]
      have : s[k] = ' ' := by
        have := hend
        simp only [Nat.add_zero] at this
        rwa [List.getD_eq_getElem?_getD, List.getElem?_eq_getElem hk, Option.getD_some] at this
      simp [frontRunLen, this]
    · rw [List.drop_eq_nil_of_le (by omega)]
      rfl
  | succ d ih =>
    intro k hbody hend
    have hk0 : s.getD k ' ' ≠ ' ' := hbody k (le_refl k) (by omega)
    have hk : k < s.length := by
      by_contra hk
      exact hk0 (getD_of_length_le (by omega) ' ')
    unfold rightRun
    rw [List.drop_eq_getElem_cons hk]
    have hsk : s[k] ≠ ' ' := by
      rw [List.getD_eq_getElem?_getD, List.getElem?_eq_getElem hk, Option.getD_some] at hk0
      exact hk0
    simp only [frontRunLen, if_neg hsk]
    have := ih (k + 1) (fun j hj1 hj2 => hbody j (by omega) (by omega))
      (by have : k + 1 + d = k + (d + 1) := by omega
          rw [this]; exact hend)
    unfold rightRun at this
    omega

/-! ## Helper lemmas: maximal runs -/

theorem isMaxRunB_iff {p : Char → Bool} {s : List Char} {a b : Nat} :
    isMaxRunB p s a b = true ↔ IsMaxRun p s a b := by
  unfold isMaxRunB IsMaxRun
  simp only [Bool.and_eq_true, decide_eq_true_eq, List.all_eq_true, List.mem_range'_1,
    Bool.or_eq_true, beq_iff_eq, Bool.not_eq_true', and_assoc]
  constructor
  · rintro ⟨h1, h2, h3, h4, h5⟩
    refine ⟨h1, h2, ?_, ?_, h5⟩
    · intro j hj1 hj2
      exact h3 j ⟨hj1, by omega⟩
    · rcases h4 with h | h
      · exact Or.inl h
      · exact Or.inr h
  · rintro ⟨h1, h2, h3, h4, h5⟩
    refine ⟨h1, h2, ?_, ?_, h5⟩
    · intro j hj
      exact h3 j hj.1 (by omega)
    · rcases h4 with h | h
      · exact Or.inl h
      · exact Or.inr h

theorem mem_candidateRuns {p : Char → Bool} {s : List Char} {mb a b : Nat} :
    (a, b) ∈ candidateRuns p s mb ↔ IsMaxRun p s a b ∧ mb ≤ b - a := by
  unfold candidateRuns
  simp only [List.mem_flatMap, List.mem_filterMap, List.mem_range]
  constructor
  · rintro ⟨a2, _, b2, _, hif⟩
    split at hif
    · rename_i hc
      obtain ⟨rfl, rfl⟩ : a2 = a ∧ b2 = b := by
        constructor <;> { injection hif with h; cases h; rfl }
      simp only [Bool.and_eq_true, decide_eq_true_eq] at hc
      exact ⟨isMaxRunB_iff.mp hc.1, hc.2⟩
    · exact absurd hif (by simp)
  · rintro ⟨hrun, hmb⟩
    have h1 := hrun.1
    have h2 := hrun.2.1
    refine ⟨a, by omega, b, by omega, ?_⟩
    rw [if_pos]
    simp only [Bool.and_eq_true, decide_eq_true_eq]
    exact ⟨isMaxRunB_iff.mpr hrun, hmb⟩

theorem maxRun_unique {p : Char → Bool} {s : List Char} {a b a2 b2 j : Nat}
    (h1 : IsMaxRun p s a b) (h2 : IsMaxRun p s a2 b2)
    (hj1 : a ≤ j) (hj2 : j < b) (hj3 : a2 ≤ j) (hj4 : j < b2) : a = a2 ∧ b = b2 := by
  obtain ⟨hab, hbl, hbody, hleft, hright⟩ := h1
  obtain ⟨hab2, hbl2, hbody2, hleft2, hright2⟩ := h2
  constructor
  · rcases Nat.lt_trichotomy a a2 with h | h | h
    · exfalso
      rcases hleft2 with h0 | hsep
      · omega
      · have hb := hbody (a2 - 1) (by omega) (by omega)
        rw [hb] at hsep
        exact absurd hsep (by decide)
    · exact h
    · exfalso
      rcases hleft with h0 | hsep
      · omega
      · have hb := hbody2 (a - 1) (by omega) (by omega)
        rw [hb] at hsep
        exact absurd hsep (by decide)
  · rcases Nat.lt_trichotomy b b2 with h | h | h
    · exfalso
      have hb := hbody2 b (by omega) (by omega)
      rw [hb] at hright
      exact absurd hright (by decide)
    · exact h
    · exfalso
      have hb := hbody b2 (by omega) (by omega)
      rw [hb] at hright2
      exact absurd hright2 (by decide)

/-! ## Helper lemmas: the invariant bridge -/

theorem noLeadingSepB_iff {s : List Char} : noLeadingSepB s = true ↔ NoLeadSep s := by
  unfold noLeadingSepB NoLeadSep
  simp only [Bool.or_eq_true, beq_iff_eq, Bool.not_eq_true', beq_eq_false_iff_ne, ne_eq]
  constructor
  · rintro (h | h) hpos
    · omega
    · exact h
  · intro h
    by_cases h0 : s.length = 0
    · exact Or.inl h0
    · exact Or.inr (h (by omega))

theorem noTrailingSepB_iff {s : List Char} : noTrailingSepB s = true ↔ NoTrailSep s := by
  unfold noTrailingSepB NoTrailSep
  simp only [Bool.or_eq_true, beq_iff_eq, Bool.not_eq_true', beq_eq_false_iff_ne, ne_eq]
  constructor
  · rintro (h | h) hpos
    · omega
    · exact h
  · intro h
    by_cases h0 : s.length = 0
    · exact Or.inl h0
    · exact Or.inr (h (by omega))

theorem noAdjSepB_iff {s : List Char} : noAdjSepB s = true ↔ NoAdjSep s := by
  unfold noAdjSepB NoAdjSep
  simp only [List.all_eq_true, List.mem_range, Bool.not_eq_true', Bool.and_eq_false_iff,
    beq_eq_false_iff_ne, ne_eq]
  constructor
  · intro h i hi
    rintro ⟨h1, h2⟩
    rcases h i (by omega) with h3 | h3
    · exact h3 h1
    · exact h3 h2
  · intro h i hi
    by_cases h1 : s.getD i ' ' = ' '
    · by_cases h2 : s.getD (i + 1) ' ' = ' '
      · exact absurd ⟨h1, h2⟩ (h i (by omega))
      · exact Or.inr h2
    · exact Or.inl h1

theorem minRunOkB_iff {mb : Nat} {s : List Char} :
    minRunOkB mb s = true ↔ MinRunOk mb s := by
  unfold minRunOkB MinRunOk
  simp only [List.all_eq_true, List.mem_range, Bool.or_eq_true, Bool.not_eq_true',
    decide_eq_true_eq]
  constructor
  · intro h a b hrun
    have h1 := hrun.1
    have h2 := hrun.2.1
    rcases h a (by omega) b (by omega) with h3 | h3
    · exact absurd (isMaxRunB_iff.mpr hrun) (by simp [h3])
    · exact h3
  · intro h a _ b _
    by_cases hr : isMaxRunB nonSepB s a b = true
    · exact Or.inr (h a b (isMaxRunB_iff.mp hr))
    · exact Or.inl (by simpa using hr)

theorem validSeqB_iff {mb : Nat} {s : List Char} :
    validSeqB mb s = true ↔ StructOk mb s := by
  unfold validSeqB StructOk
  simp only [Bool.and_eq_true]
  rw [noLeadingSepB_iff, noTrailingSepB_iff, noAdjSepB_iff, minRunOkB_iff]
  tauto

/-! ## Helper lemmas: a single-cell write preserves the invariants -/

theorem structOk_set_letter {mb : Nat} {s : List Char} {i : Nat} {c : Char}
    (hc : c ≠ ' ') (h : StructOk mb s) : StructOk mb (s.set i c) := by
  obtain ⟨hlead, htrail, hadj, hrun⟩ := h
  refine ⟨?_, ?_, ?_, ?_⟩
  · intro hpos
    rw [List.length_set] at hpos
    rw [getD_set]
    split
    · exact hc
    · exact hlead hpos
  · intro hpos
    rw [List.length_set] at hpos ⊢
    rw [getD_set]
    split
    · exact hc
    · exact htrail hpos
  · intro j hj h12
    rw [List.length_set] at hj
    obtain ⟨h1, h2⟩ := h12
    rw [getD_set] at h1 h2
    by_cases hji : j = i ∧ j < s.length
    · rw [if_pos hji] at h1
      exact hc h1
    · rw [if_neg hji] at h1
      by_cases hj1i : j + 1 = i ∧ j + 1 < s.length
      · rw [if_pos hj1i] at h2
        exact hc h2
      · rw [if_neg hj1i] at h2
        exact hadj j hj ⟨h1, h2⟩
  · intro a b hrun2
    obtain ⟨hab, hbl, hbody, hleftB, hrightB⟩ := hrun2
    rw [List.length_set] at hbl
    by_cases hin : i < s.length
    · -- a read at any position other than `i` is unchanged
      have hread : ∀ j, j ≠ i → (s.set i c).getD j ' ' = s.getD j ' ' := by
        intro j hji
        rw [getD_set, if_neg]
        rintro ⟨rfl, _⟩
        exact hji rfl
      by_cases hii : a ≤ i ∧ i < b
      · -- the write lies inside the new run
        have hbody2 : ∀ j, a ≤ j → j < b → j ≠ i → s.getD j ' ' ≠ ' ' := by
          intro j h1 h2 h3
          have := hbody j h1 h2
          rw [hread j h3] at this
          exact nonSepB_eq_true.mp this
        by_cases hsi : s.getD i ' ' = ' '
        · -- the overwritten cell was a separator in `s`
          by_cases hai : a < i
          · have hsub : mb ≤ i - a := by
              apply hrun a i
              refine ⟨hai, by omega, ?_, ?_, nonSepB_eq_false.mpr hsi⟩
              · intro j h1 h2
                exact nonSepB_eq_true.mpr (hbody2 j h1 (by omega) (by omega))
              · rcases hleftB with h0 | hsep
                · exact Or.inl h0
                · refine Or.inr ?_
                  rw [hread (a - 1) (by omega)] at hsep
                  exact hsep
            omega
          · have hae : a = i := by omega
            by_cases hbi : i + 1 < b
            · have hsub : mb ≤ b - (i + 1) := by
                apply hrun (i + 1) b
                refine ⟨hbi, hbl, ?_, ?_, ?_⟩
                · intro j h1 h2
                  exact nonSepB_eq_true.mpr (hbody2 j (by omega) h2 (by omega))
                · refine Or.inr ?_
                  simp only [Nat.add_sub_cancel]
                  exact nonSepB_eq_false.mpr hsi
                · have := hrightB
                  rw [hread b (by omega)] at this
                  exact this
              omega
            · -- the new run would be the single overwritten cell: impossible
              exfalso
              have hbe : b = i + 1 := by omega
              by_cases hi0 : i = 0
              · exact hlead (by omega) (hi0 ▸ hsi)
              · rcases hleftB with h0 | hsep
                · omega
                · rw [hread (a - 1) (by omega)] at hsep
                  have hprev : s.getD (i - 1) ' ' = ' ' := by
                    rw [show i - 1 = a - 1 by omega]
                    exact nonSepB_eq_false.mp hsep
                  have hpairs := hadj (i - 1) (by omega)
                  rw [show i - 1 + 1 = i by omega] at hpairs
                  exact hpairs ⟨hprev, hsi⟩
        · -- the overwritten cell was already a letter: the run is a run of `s`
          apply hrun a b
          refine ⟨hab, hbl, ?_, ?_, ?_⟩
          · intro j h1 h2
            by_cases hji : j = i
            · exact nonSepB_eq_true.mpr (hji ▸ hsi)
            · exact nonSepB_eq_true.mpr (hbody2 j h1 h2 hji)
          · by_cases ha0 : a = 0
            · exact Or.inl ha0
            · rcases hleftB with h0 | hsep
              · exact Or.inl h0
              · refine Or.inr ?_
                rw [hread (a - 1) (by omega)] at hsep
                exact hsep
          · have := hrightB
            rw [hread b (by omega)] at this
            exact this
      · -- the write lies outside the new run
        by_cases hib : i = b
        · exfalso
          rw [getD_set, if_pos ⟨hib.symm, by omega⟩] at hrightB
          exact hc (nonSepB_eq_false.mp hrightB)
        · by_cases hia : a ≠ 0 ∧ i = a - 1
          · exfalso
            rcases hleftB with h0 | hsep
            · exact hia.1 h0
            · rw [getD_set, if_pos ⟨hia.2.symm, by omega⟩] at hsep
              exact hc (nonSepB_eq_false.mp hsep)
          · apply hrun a b
            refine ⟨hab, hbl, ?_, ?_, ?_⟩
            · intro j h1 h2
              have := hbody j h1 h2
              rw [hread j (by omega)] at this
              exact this
            · rcases hleftB with h0 | hsep
              · exact Or.inl h0
              · refine Or.inr ?_
                have hne : a - 1 ≠ i := by
                  intro he
                  by_cases h0 : a = 0
                  · subst h0
                    simp at he
                    omega
                  · exact hia ⟨h0, he.symm⟩
                rw [hread (a - 1) hne] at hsep
                exact hsep
            · have := hrightB
              rw [hread b (fun he => hib he.symm)] at this
              exact this
    · -- out-of-range write: a no-op on every read
      have hread : ∀ j, (s.set i c).getD j ' ' = s.getD j ' ' := by
        intro j
        rw [getD_set, if_neg]
        rintro ⟨rfl, hlt⟩
        omega
      apply hrun a b
      refine ⟨hab, hbl, ?_, ?_, ?_⟩
      · intro j h1 h2
        rw [← hread j]
        exact hbody j h1 h2
      · rcases hleftB with h0 | hsep
        · exact Or.inl h0
        · exact Or.inr (by rw [← hread (a - 1)]; exact hsep)
      · rw [← hread b]
        exact hrightB

theorem structOk_set_space {mb : Nat} {s : List Char} {frozen : List Bool} {i : Nat}
    (hin : i < s.length) (hok : spaceOk s frozen mb i = true) (h : StructOk mb s) :
    StructOk mb (s.set i ' ') := by
  obtain ⟨hlead, htrail, hadj, hrun⟩ := h
  unfold spaceOk at hok
  simp only [Bool.and_eq_true, Bool.not_eq_true', Bool.or_eq_false_iff, beq_eq_false_iff_ne,
    ne_eq, decide_eq_true_eq] at hok
  obtain ⟨⟨⟨⟨⟨hi0, hin1⟩, hprev, hnext⟩, hl, hr⟩, _⟩, _⟩ := hok
  have hi1 : 1 ≤ i := by omega
  have hi2 : i + 1 < s.length := by omega
  have hread : ∀ j, j ≠ i → (s.set i ' ').getD j ' ' = s.getD j ' ' := by
    intro j hji
    rw [getD_set, if_neg]
    rintro ⟨rfl, _⟩
    exact hji rfl
  refine ⟨?_, ?_, ?_, ?_⟩
  · intro hpos
    rw [hread 0 (by omega)]
    exact hlead (by omega)
  · intro hpos
    rw [List.length_set]
    rw [hread (s.length - 1) (by omega)]
    exact htrail (by omega)
  · intro j hj h12
    rw [List.length_set] at hj
    obtain ⟨h1, h2⟩ := h12
    by_cases hji : j = i
    · rw [hread (j + 1) (by omega)] at h2
      rw [hji] at h2
      exact hnext h2
    · by_cases hj1i : j + 1 = i
      · rw [hread j (by omega)] at h1
        rw [show j = i - 1 by omega] at h1
        exact hprev h1
      · rw [hread j hji] at h1
        rw [hread (j + 1) hj1i] at h2
        exact hadj j hj ⟨h1, h2⟩
  · intro a b hrun2
    obtain ⟨hab, hbl, hbody, hleftB, hrightB⟩ := hrun2
    rw [List.length_set] at hbl
    have houtside : ¬(a ≤ i ∧ i < b) := by
      rintro ⟨h1, h2⟩
      have := hbody i h1 h2
      rw [getD_set, if_pos ⟨rfl, hin⟩] at this
      exact absurd this (by decide)
    by_cases hbi : b = i
    · -- the new run ends at the written separator: bounded by `lcount`
      have hlr : leftRun s i = i - a := by
        apply leftRun_eq_of s a
        · rcases hleftB with h0 | hsep
          · exact Or.inl h0
          · refine Or.inr ?_
            rw [hread (a - 1) (by omega)] at hsep
            exact nonSepB_eq_false.mp hsep
        · omega
        · intro j h1 h2
          have := hbody j h1 (by omega)
          rw [hread j (by omega)] at this
          exact nonSepB_eq_true.mp this
      omega
    · by_cases hai : a = i + 1
      · -- the new run starts after the written separator: bounded by `rcount`
        have hrr : rightRun s (i + 1) = b - (i + 1) := by
          apply rightRun_eq_of s (b - (i + 1)) (i + 1)
          · intro j h1 h2
            have := hbody j (by omega) (by omega)
            rw [hread j (by omega)] at this
            exact nonSepB_eq_true.mp this
          · rw [show i + 1 + (b - (i + 1)) = b by omega]
            have := hrightB
            rw [hread b (by omega)] at this
            exact nonSepB_eq_false.mp this
        omega
      · -- the write is disjoint from the new run and its borders
        apply hrun a b
        refine ⟨hab, hbl, ?_, ?_, ?_⟩
        · intro j h1 h2
          have := hbody j h1 h2
          rw [hread j (by omega)] at this
          exact this
        · rcases hleftB with h0 | hsep
          · exact Or.inl h0
          · refine Or.inr ?_
            rw [hread (a - 1) (by omega)] at hsep
            exact hsep
        · have := hrightB
          rw [hread b (by omega)] at this
          exact this

/-! ## Helper lemmas: the candidate loop of the mutator -/

theorem pickFirst_spec {chars : List Char} {frozen : List Bool} {mb i : Nat} (l : List Char)
    {c : Char} (h : pickFirst chars frozen mb i l = some c) :
    c ≠ ' ' ∨ (c = ' ' ∧ spaceOk chars frozen mb i = true) := by
  induction l with
  | nil => exact absurd h (by simp [pickFirst])
  | cons x rest ih =>
    unfold pickFirst at h
    split at h
    · split at h
      · rename_i hok
        injection h with h2
        exact Or.inr ⟨h2.symm, hok⟩
      · exact ih h
    · rename_i hx
      injection h with h2
      subst h2
      exact Or.inl hx

theorem pickFirst_mem {chars : List Char} {frozen : List Bool} {mb i : Nat} (l : List Char)
    {c : Char} (h : pickFirst chars frozen mb i l = some c) : c ∈ l := by
  induction l with
  | nil => exact absurd h (by simp [pickFirst])
  | cons x rest ih =>
    unfold pickFirst at h
    split at h
    · rename_i hx
      split at h
      · injection h with h2
        rw [← h2, ← hx]
        exact List.mem_cons_self x rest
      · exact List.mem_cons_of_mem x (ih h)
    · injection h with h2
      rw [← h2]
      exact List.mem_cons_self x rest

theorem pickFirst_isSome {chars : List Char} {frozen : List Bool} {mb i : Nat} (l : List Char)
    (h : ∃ x ∈ l, x ≠ ' ') : (pickFirst chars frozen mb i l).isSome = true := by
  induction l with
  | nil => simp at h
  | cons x rest ih =>
    unfold pickFirst
    split
    · rename_i hx
      split
      · rfl
      · apply ih
        obtain ⟨y, hy1, hy2⟩ := h
        rcases List.mem_cons.mp hy1 with rfl | hy3
        · exact absurd hx hy2
        · exact ⟨y, hy3, hy2⟩
    · rfl

/-! ## Helper lemmas: the per-cell pass of the mutator -/

theorem mutateStep_length {frozen : List Bool} {mb : Nat} {trigger : Nat → Bool}
    {shuffle : Nat → List Char} {fb : Nat → Char} (chars : List Char) (i : Nat) :
    (mutateStep frozen mb trigger shuffle fb chars i).length = chars.length := by
  unfold mutateStep
  split
  · rfl
  · split
    · rfl
    · split
      · exact List.length_set chars i _
      · exact List.length_set chars i _

theorem mutateStep_structOk {mb : Nat} {frozen : List Bool} {trigger : Nat → Bool}
    {shuffle : Nat → List Char} {fb : Nat → Char} (hfb : ∀ k, fb k ∈ LETTER_ALPHABET)
    {chars : List Char} {i : Nat} (hin : i < chars.length) (h : StructOk mb chars) :
    StructOk mb (mutateStep frozen mb trigger shuffle fb chars i) := by
  unfold mutateStep
  split
  · exact h
  · split
    · exact h
    · split
      · rename_i c heq
        rcases pickFirst_spec _ heq with hc | ⟨hc, hok⟩
        · exact structOk_set_letter hc h
        · subst hc
          exact structOk_set_space hin hok h
      · exact structOk_set_letter (alphabet_nonspace (hfb i)) h

theorem mutateStep_getD_frozen {frozen : List Bool} {mb : Nat} {trigger : Nat → Bool}
    {shuffle : Nat → List Char} {fb : Nat → Char} (chars : List Char) (i j : Nat)
    (hj : frozen.getD j false = true) :
    (mutateStep frozen mb trigger shuffle fb chars i).getD j ' ' = chars.getD j ' ' := by
  unfold mutateStep
  split
  · rfl
  · split
    · rfl
    · rename_i hfi _
      have hij : j ≠ i := by
        rintro rfl
        exact hfi hj
      split
      · rw [getD_set, if_neg (fun hcon => hij hcon.1)]
      · rw [getD_set, if_neg (fun hcon => hij hcon.1)]

theorem foldl_mutateStep_structOk {mb : Nat} {frozen : List Bool} {trigger : Nat → Bool}
    {shuffle : Nat → List Char} {fb : Nat → Char} (hfb : ∀ k, fb k ∈ LETTER_ALPHABET) :
    ∀ (l : List Nat) (chars : List Char), StructOk mb chars →
      (∀ x ∈ l, x < chars.length) →
      StructOk mb (l.foldl (mutateStep frozen mb trigger shuffle fb) chars) ∧
      (l.foldl (mutateStep frozen mb trigger shuffle fb) chars).length = chars.length := by
  intro l
  induction l with
  | nil => exact fun chars h _ => ⟨h, rfl⟩
  | cons x rest ih =>
    intro chars h hlt
    have hx : x < chars.length := hlt x (List.mem_cons_self x rest)
    have hstep : StructOk mb (mutateStep frozen mb trigger shuffle fb chars x) :=
      mutateStep_structOk hfb hx h
    have hlen : (mutateStep frozen mb trigger shuffle fb chars x).length = chars.length :=
      mutateStep_length chars x
    have hrec := ih (mutateStep frozen mb trigger shuffle fb chars x) hstep
      (fun y hy => by rw [hlen]; exact hlt y (List.mem_cons_of_mem x hy))
    simp only [List.foldl_cons]
    exact ⟨hrec.1, by rw [hrec.2, hlen]⟩

theorem foldl_mutateStep_frozen {mb : Nat} {frozen : List Bool} {trigger : Nat → Bool}
    {shuffle : Nat → List Char} {fb : Nat → Char} (j : Nat)
    (hj : frozen.getD j false = true) :
    ∀ (l : List Nat) (chars : List Char),
      (l.foldl (mutateStep frozen mb trigger shuffle fb) chars).getD j ' ' =
        chars.getD j ' ' := by
  intro l
  induction l with
  | nil => exact fun chars => rfl
  | cons x rest ih =>
    intro chars
    simp only [List.foldl_cons]
    rw [ih, mutateStep_getD_frozen chars x j hj]

theorem foldl_mutateStep_length {mb : Nat} {frozen : List Bool} {trigger : Nat → Bool}
    {shuffle : Nat → List Char} {fb : Nat → Char} :
    ∀ (l : List Nat) (chars : List Char),
      (l.foldl (mutateStep frozen mb trigger shuffle fb) chars).length = chars.length := by
  intro l
  induction l with
  | nil => exact fun chars => rfl
  | cons x rest ih =>
    intro chars
    simp only [List.foldl_cons]
    rw [ih, mutateStep_length]

theorem mutate_once_getD_frozen {s : List Char} {frozen : List Bool}
    {word_id : List (Option Nat)} {mb : Nat} {trigger : Nat → Bool}
    {shuffle : Nat → List Char} {fb : Nat → Char} {j : Nat}
    (hj : frozen.getD j false = true) :
    (mutate_once s frozen word_id mb trigger shuffle fb).getD j ' ' = s.getD j ' ' :=
  foldl_mutateStep_frozen j hj (List.range s.length) s

theorem mutate_once_length (s : List Char) (frozen : List Bool)
    (word_id : List (Option Nat)) (mb : Nat) (trigger : Nat → Bool)
    (shuffle : Nat → List Char) (fb : Nat → Char) :
    (mutate_once s frozen word_id mb trigger shuffle fb).length = s.length :=
  foldl_mutateStep_length (List.range s.length) s

/-! ## Claim C1: the mutator preserves the structural invariants -/

/-- Claim C1: for every input string of letters and spaces satisfying the three
structural invariants (no leading or trailing separator, no adjacent
separators, every maximal letter run at least `min_block` long), every
frozen/word-id assignment, every `min_block ≥ 1` and every possible sequence
of random draws (`trigger`, `shuffle`, fallback letters `fb`), `mutate_once`
returns a string of the same length that again satisfies all three
invariants. -/
theorem c1_mutate_once_preserves_invariants (s : List Char) (frozen : List Bool)
    (word_id : List (Option Nat)) (mb : Nat) (trigger : Nat → Bool)
    (shuffle : Nat → List Char) (fb : Nat → Char) (hmb : 1 ≤ mb)
    (hs : validSeqB mb s = true) (hfb : ∀ k, fb k ∈ LETTER_ALPHABET) :
    (mutate_once s frozen word_id mb trigger shuffle fb).length = s.length ∧
    validSeqB mb (mutate_once s frozen word_id mb trigger shuffle fb) = true := by
  unfold mutate_once
  have h : StructOk mb ((List.range s.length).foldl
        (mutateStep frozen mb trigger shuffle fb) s) ∧
      ((List.range s.length).foldl (mutateStep frozen mb trigger shuffle fb) s).length
        = s.length :=
    foldl_mutateStep_structOk hfb (List.range s.length) s (validSeqB_iff.mp hs)
      (fun x hx => List.mem_range.mp hx)
  exact ⟨h.2, validSeqB_iff.mpr h.1⟩

/-- Witness for C1 at a concrete input. -/
theorem c1_witness :
    (1 ≤ 1 ∧ validSeqB 1 abcL = true ∧ (∀ k : Nat, 'q' ∈ LETTER_ALPHABET)) ∧
    validSeqB 1 (mutate_once abcL (List.replicate 3 false) (List.replicate 3 none) 1
      (fun _ => true) (fun _ => mutationCandidates) (fun _ => 'q')) = true :=
  ⟨⟨by decide, by decide, fun _ => by decide⟩,
    (c1_mutate_once_preserves_invariants abcL (List.replicate 3 false)
      (List.replicate 3 none) 1 (fun _ => true) (fun _ => mutationCandidates) (fun _ => 'q')
      (by decide) (by decide) (fun _ => show 'q' ∈ LETTER_ALPHABET by decide)).2⟩

/-! ## Claim C3: locked cells never change -/

/-- Claim C3: for every string, frozen-flag array and index `i` with
`frozen[i] = True`, the string returned by `mutate_once` carries at `i`
exactly the character the input had there, for every possible sequence of
random draws. -/
theorem c3_frozen_cells_unchanged (s : List Char) (frozen : List Bool)
    (word_id : List (Option Nat)) (mb : Nat) (trigger : Nat → Bool)
    (shuffle : Nat → List Char) (fb : Nat → Char) (i : Nat)
    (hi : frozen.getD i false = true) :
    (mutate_once s frozen word_id mb trigger shuffle fb).getD i ' ' = s.getD i ' ' :=
  mutate_once_getD_frozen hi

/-- Witness for C3 at a concrete input. -/
theorem c3_witness :
    (List.replicate 7 true).getD 0 false = true ∧
    (mutate_once catdogL (List.replicate 7 true) (List.replicate 7 none) 3 (fun _ => true)
        (fun _ => mutationCandidates) (fun _ => 'q')).getD 0 ' ' = catdogL.getD 0 ' ' :=
  ⟨by decide,
    c3_frozen_cells_unchanged catdogL (List.replicate 7 true) (List.replicate 7 none) 3
      (fun _ => true) (fun _ => mutationCandidates) (fun _ => 'q') 0 (by decide)⟩

/-! ## Claim C9: the candidate loop always commits before exhaustion -/

/-- Claim C9: whenever the per-cell draw triggers, the shuffled-candidate
loop always commits a value: for every shuffle of the 27-candidate pool the
first-accepted search over the first 40 candidates returns a value, and any
returned value is a lowercase letter or a separator that passed every
placement check — so the `chosen is None` fallback is unreachable. -/
theorem c9_candidate_loop_always_commits :
    (∀ (chars : List Char) (frozen : List Bool) (mb i : Nat) (cs : List Char),
        cs.Perm mutationCandidates →
        (pickFirst chars frozen mb i (cs.take 40)).isSome = true) ∧
    (∀ (chars : List Char) (frozen : List Bool) (mb i : Nat) (cs : List Char) (c : Char),
        cs.Perm mutationCandidates →
        pickFirst chars frozen mb i (cs.take 40) = some c →
        c ∈ LETTER_ALPHABET ∨ (c = ' ' ∧ spaceOk chars frozen mb i = true)) := by
  have htake : ∀ cs : List Char, cs.Perm mutationCandidates → cs.take 40 = cs := by
    intro cs hperm
    apply List.take_of_length_le
    rw [hperm.length_eq]
    decide
  constructor
  · intro chars frozen mb i cs hperm
    rw [htake cs hperm]
    apply pickFirst_isSome
    refine ⟨'a', hperm.mem_iff.mpr (by decide), by decide⟩
  · intro chars frozen mb i cs c hperm hpick
    rcases pickFirst_spec _ hpick with hc | ⟨hc, hok⟩
    · left
      have hmem : c ∈ cs := by
        rw [htake cs hperm] at hpick
        exact pickFirst_mem cs hpick
      have hmem2 : c ∈ mutationCandidates := hperm.mem_iff.mp hmem
      unfold mutationCandidates at hmem2
      rcases List.mem_append.mp hmem2 with h | h
      · exact h
      · exact absurd (List.mem_singleton.mp h) hc
    · exact Or.inr ⟨hc, hok⟩

/-! ## Helper lemmas: the greedy match selection -/

theorem spanOverlapB_iff {c m : WMatch} :
    spanOverlapB c m = true ↔ ∃ j, m.1 ≤ j ∧ j < m.2.1 ∧ c.1 ≤ j ∧ j < c.2.1 := by
  unfold spanOverlapB
  simp only [List.any_eq_true, List.mem_range'_1, Bool.and_eq_true, decide_eq_true_eq]
  constructor
  · rintro ⟨j, ⟨h1, h2⟩, h3, h4⟩
    exact ⟨j, h1, by omega, h3, h4⟩
  · rintro ⟨j, h1, h2, h3, h4⟩
    exact ⟨j, ⟨h1, by omega⟩, h3, h4⟩

theorem greedySelect_mem_acc : ∀ (l acc : List WMatch) (x : WMatch),
    x ∈ acc → x ∈ greedySelect l acc := by
  intro l
  induction l with
  | nil => exact fun acc x hx => hx
  | cons m rest ih =>
    intro acc x hx
    unfold greedySelect
    split
    · exact ih acc x hx
    · exact ih (acc ++ [m]) x (List.mem_append_left _ hx)

theorem greedySelect_pairwise : ∀ (l acc : List WMatch),
    acc.Pairwise (fun m1 m2 => ¬sharesCell m1 m2) →
    (greedySelect l acc).Pairwise (fun m1 m2 => ¬sharesCell m1 m2) := by
  intro l
  induction l with
  | nil => exact fun acc h => h
  | cons m rest ih =>
    intro acc h
    unfold greedySelect
    split
    · exact ih acc h
    · rename_i hnot
      apply ih
      rw [List.pairwise_append]
      refine ⟨h, List.pairwise_singleton _ _, ?_⟩
      intro a ha b hb
      rw [List.mem_singleton] at hb
      subst hb
      rintro ⟨j, h1, h2, h3, h4⟩
      apply hnot
      rw [List.any_eq_true]
      exact ⟨a, ha, spanOverlapB_iff.mpr ⟨j, h3, h4, h1, h2⟩⟩

/-! ## Claim C4: selected matches never overlap -/

/-- Claim C4: for every string, word set and `min_block`, the matches
returned by `find_word_matches` are pairwise non-overlapping — no two of
them share a cell index. -/
theorem c4_matches_nonoverlapping (s : List Char) (ws : List (List Char)) (mb : Nat) :
    (find_word_matches s ws mb).Pairwise (fun m1 m2 => ¬sharesCell m1 m2) := by
  unfold find_word_matches
  exact greedySelect_pairwise _ [] List.Pairwise.nil

/-! ## Claim C5: candidate order and greedy priority -/

/-- Claim C5: `find_word_matches` orders its candidates by descending length
and, among equal lengths, by ascending start index, and then greedily keeps
each candidate that does not overlap an already-kept one; in the bounded
in-wordset candidate scenario with lengths `[5, 4, 4]` where the length-5
span overlaps both length-4 spans, only the length-5 match is kept.  (Actual
candidates are distinct maximal runs and hence never overlap, so the
`[5, 4, 4]` scenario is exhibited at the sorting-and-selection stage that
`find_word_matches` is composed of.) -/
theorem c5_greedy_priority :
    (∀ (s : List Char) (ws : List (List Char)) (mb : Nat),
      (sortMatches (matchCandidates s ws mb)).Pairwise (fun m1 m2 =>
        m2.2.1 - m2.1 < m1.2.1 - m1.1 ∨
        (m1.2.1 - m1.1 = m2.2.1 - m2.1 ∧ m1.1 ≤ m2.1))) ∧
    (∀ (s : List Char) (ws : List (List Char)) (mb : Nat),
      find_word_matches s ws mb = greedySelect (sortMatches (matchCandidates s ws mb)) []) ∧
    (sortMatches [(3, 7, List.replicate 4 'x'), (4, 8, List.replicate 4 'y'),
        (0, 5, List.replicate 5 'z')] =
      [(0, 5, List.replicate 5 'z'), (3, 7, List.replicate 4 'x'),
        (4, 8, List.replicate 4 'y')] ∧
      greedySelect [(0, 5, List.replicate 5 'z'), (3, 7, List.replicate 4 'x'),
        (4, 8, List.replicate 4 'y')] [] = [(0, 5, List.replicate 5 'z')]) := by
  refine ⟨?_, fun s ws mb => rfl, by decide, by decide⟩
  intro s ws mb
  have h := List.sorted_insertionSort matchRel (matchCandidates s ws mb)
  refine List.Pairwise.imp ?_ h
  intro a b hab
  unfold matchRel matchLE at hab
  simp only [Bool.or_eq_true, Bool.and_eq_true, decide_eq_true_eq] at hab
  omega

/-- Witness for C9 at a concrete input. -/
theorem c9_witness :
    List.Perm mutationCandidates mutationCandidates ∧
    (pickFirst catdogL (List.replicate 7 false) 3 0 (mutationCandidates.take 40)).isSome
      = true :=
  ⟨List.Perm.refl mutationCandidates,
    c9_candidate_loop_always_commits.1 catdogL (List.replicate 7 false) 3 0
      mutationCandidates (List.Perm.refl mutationCandidates)⟩

/-! ## Helper lemmas: the lock-tracking pass -/

theorem freezeCells_length (wid : Nat) (idxs : List Nat) :
    ∀ st : List Bool × List (Option Nat),
      (freezeCells wid idxs st).1.length = st.1.length ∧
      (freezeCells wid idxs st).2.length = st.2.length := by
  induction idxs with
  | nil => exact fun st => ⟨rfl, rfl⟩
  | cons x rest ih =>
    intro st
    have := ih (st.1.set x true, st.2.set x (some wid))
    simp only [freezeCells, List.foldl_cons] at this ⊢
    rw [this.1, this.2]
    simp

theorem freezeCells_getD_notMem (wid : Nat) (idxs : List Nat) (i : Nat) (hi : i ∉ idxs) :
    ∀ st : List Bool × List (Option Nat),
      (freezeCells wid idxs st).1.getD i false = st.1.getD i false ∧
      (freezeCells wid idxs st).2.getD i none = st.2.getD i none := by
  induction idxs with
  | nil => exact fun st => ⟨rfl, rfl⟩
  | cons x rest ih =>
    intro st
    have hix : i ≠ x := fun h => hi (h ▸ List.mem_cons_self x rest)
    have hrest : i ∉ rest := fun h => hi (List.mem_cons_of_mem x h)
    have := ih hrest (st.1.set x true, st.2.set x (some wid))
    simp only [freezeCells, List.foldl_cons] at this ⊢
    rw [this.1, this.2, getD_set, if_neg (fun hcon => hix hcon.1),
      getD_set, if_neg (fun hcon => hix hcon.1)]
    exact ⟨rfl, rfl⟩

theorem freezeCells_getD_mem (wid : Nat) (idxs : List Nat) (i : Nat) :
    ∀ st : List Bool × List (Option Nat), i ∈ idxs →
      i < st.1.length → i < st.2.length →
      (freezeCells wid idxs st).1.getD i false = true ∧
      (freezeCells wid idxs st).2.getD i none = some wid := by
  induction idxs with
  | nil => intro st hmem; simp at hmem
  | cons x rest ih =>
    intro st hmem h1 h2
    by_cases hr : i ∈ rest
    · have := ih (st.1.set x true, st.2.set x (some wid)) hr (by simpa using h1)
        (by simpa using h2)
      simp only [freezeCells, List.foldl_cons] at this ⊢
      exact this
    · have hix : i = x := by
        rcases List.mem_cons.mp hmem with h | h
        · exact h
        · exact absurd h hr
      subst hix
      have hnm := freezeCells_getD_notMem wid rest i hr
        (st.1.set i true, st.2.set i (some wid))
      simp only [freezeCells, List.foldl_cons] at hnm ⊢
      rw [hnm.1, hnm.2, getD_set, if_pos ⟨rfl, h1⟩, getD_set, if_pos ⟨rfl, h2⟩]
      exact ⟨rfl, rfl⟩

theorem freezeBefore_length (s : List Char) (wid : Nat) (m : WMatch)
    (st : List Bool × List (Option Nat)) :
    (freezeBefore s wid m st).1.length = st.1.length ∧
    (freezeBefore s wid m st).2.length = st.2.length := by
  unfold freezeBefore
  split
  · exact freezeCells_length wid [m.1 - 1] st
  · exact ⟨rfl, rfl⟩

theorem freezeAfter_length (s : List Char) (wid : Nat) (m : WMatch)
    (st : List Bool × List (Option Nat)) :
    (freezeAfter s wid m st).1.length = st.1.length ∧
    (freezeAfter s wid m st).2.length = st.2.length := by
  unfold freezeAfter
  split
  · exact freezeCells_length wid [m.2.1] st
  · exact ⟨rfl, rfl⟩

theorem freezeOne_length (s : List Char) (wid : Nat) (m : WMatch)
    (st : List Bool × List (Option Nat)) :
    (freezeOne s wid m st).1.length = st.1.length ∧
    (freezeOne s wid m st).2.length = st.2.length := by
  unfold freezeOne
  have ha := freezeCells_length wid (List.range' m.1 (m.2.1 - m.1)) st
  have hb := freezeBefore_length s wid m (freezeCells wid (List.range' m.1 (m.2.1 - m.1)) st)
  have hc := freezeAfter_length s wid m
    (freezeBefore s wid m (freezeCells wid (List.range' m.1 (m.2.1 - m.1)) st))
  omega

theorem freezeCells_span_getD (wid : Nat) (m : WMatch)
    (st : List Bool × List (Option Nat)) (i : Nat)
    (hl1 : i < st.1.length) (hl2 : i < st.2.length) :
    ((freezeCells wid (List.range' m.1 (m.2.1 - m.1)) st).1.getD i false =
      if m.1 ≤ i ∧ i < m.2.1 then true else st.1.getD i false) ∧
    ((freezeCells wid (List.range' m.1 (m.2.1 - m.1)) st).2.getD i none =
      if m.1 ≤ i ∧ i < m.2.1 then some wid else st.2.getD i none) := by
  have hspan_mem : i ∈ List.range' m.1 (m.2.1 - m.1) ↔ m.1 ≤ i ∧ i < m.2.1 := by
    rw [List.mem_range'_1]
    omega
  by_cases hsp : m.1 ≤ i ∧ i < m.2.1
  · have hw := freezeCells_getD_mem wid (List.range' m.1 (m.2.1 - m.1)) i st
      (hspan_mem.mpr hsp) hl1 hl2
    rw [if_pos hsp, if_pos hsp]
    exact hw
  · have hw := freezeCells_getD_notMem wid (List.range' m.1 (m.2.1 - m.1)) i
      (fun h => hsp (hspan_mem.mp h)) st
    rw [if_neg hsp, if_neg hsp]
    exact hw

theorem freezeBefore_getD (s : List Char) (wid : Nat) (m : WMatch)
    (st : List Bool × List (Option Nat)) (i : Nat)
    (hl1 : i < st.1.length) (hl2 : i < st.2.length) :
    ((freezeBefore s wid m st).1.getD i false =
      if i + 1 = m.1 ∧ s.getD i ' ' = ' ' then true else st.1.getD i false) ∧
    ((freezeBefore s wid m st).2.getD i none =
      if i + 1 = m.1 ∧ s.getD i ' ' = ' ' then some wid else st.2.getD i none) := by
  unfold freezeBefore
  by_cases hc : i + 1 = m.1 ∧ s.getD i ' ' = ' '
  · rw [if_pos hc, if_pos hc]
    have hcond : 1 ≤ m.1 ∧ s.getD (m.1 - 1) ' ' = ' ' := by
      refine ⟨by omega, ?_⟩
      rw [show m.1 - 1 = i by omega]
      exact hc.2
    rw [if_pos hcond]
    exact freezeCells_getD_mem wid [m.1 - 1] i st
      (by rw [List.mem_singleton]; omega) hl1 hl2
  · rw [if_neg hc, if_neg hc]
    split
    · rename_i hcond
      have him : i ≠ m.1 - 1 := by
        intro hcon
        apply hc
        refine ⟨by omega, ?_⟩
        rw [hcon]
        exact hcond.2
      exact freezeCells_getD_notMem wid [m.1 - 1] i
        (fun h => him (List.mem_singleton.mp h)) st
    · exact ⟨rfl, rfl⟩

theorem freezeAfter_getD (s : List Char) (wid : Nat) (m : WMatch)
    (st : List Bool × List (Option Nat)) (i : Nat)
    (hl1 : i < st.1.length) (hl2 : i < st.2.length) :
    ((freezeAfter s wid m st).1.getD i false =
      if m.2.1 = i ∧ i < s.length ∧ s.getD i ' ' = ' ' then true else st.1.getD i false) ∧
    ((freezeAfter s wid m st).2.getD i none =
      if m.2.1 = i ∧ i < s.length ∧ s.getD i ' ' = ' ' then some wid
        else st.2.getD i none) := by
  unfold freezeAfter
  by_cases hc : m.2.1 = i ∧ i < s.length ∧ s.getD i ' ' = ' '
  · rw [if_pos hc, if_pos hc]
    have hcond : m.2.1 < s.length ∧ s.getD m.2.1 ' ' = ' ' := by
      rw [hc.1]
      exact hc.2
    rw [if_pos hcond]
    exact freezeCells_getD_mem wid [m.2.1] i st
      (by rw [List.mem_singleton, hc.1]) hl1 hl2
  · rw [if_neg hc, if_neg hc]
    split
    · rename_i hcond
      have him : i ≠ m.2.1 := by
        intro hcon
        exact hc ⟨hcon.symm, by rw [hcon]; exact hcond⟩
      exact freezeCells_getD_notMem wid [m.2.1] i
        (fun h => him (List.mem_singleton.mp h)) st
    · exact ⟨rfl, rfl⟩

theorem freezeOne_getD (s : List Char) (wid : Nat) (m : WMatch)
    (st : List Bool × List (Option Nat)) (i : Nat)
    (hl1 : i < st.1.length) (hl2 : i < st.2.length) (hin : i < s.length) :
    ((freezeOne s wid m st).1.getD i false = true ↔
      touchIdx s m i ∨ st.1.getD i false = true) ∧
    (freezeOne s wid m st).2.getD i none =
      (if touchIdx s m i then some wid else st.2.getD i none) := by
  unfold freezeOne
  have hlen1 := freezeCells_length wid (List.range' m.1 (m.2.1 - m.1)) st
  have hlen2 := freezeBefore_length s wid m
    (freezeCells wid (List.range' m.1 (m.2.1 - m.1)) st)
  have hsp := freezeCells_span_getD wid m st i hl1 hl2
  have hbf := freezeBefore_getD s wid m
    (freezeCells wid (List.range' m.1 (m.2.1 - m.1)) st) i (by omega) (by omega)
  have haf := freezeAfter_getD s wid m
    (freezeBefore s wid m (freezeCells wid (List.range' m.1 (m.2.1 - m.1)) st)) i
    (by omega) (by omega)
  rw [haf.1, haf.2, hbf.1, hbf.2, hsp.1, hsp.2]
  by_cases hR : m.2.1 = i ∧ i < s.length ∧ s.getD i ' ' = ' '
  · have ht : touchIdx s m i := Or.inr ⟨Or.inr hR.1, hR.2⟩
    rw [if_pos hR, if_pos hR, if_pos ht]
    exact ⟨by simp [ht], rfl⟩
  · rw [if_neg hR, if_neg hR]
    by_cases hL : i + 1 = m.1 ∧ s.getD i ' ' = ' '
    · have ht : touchIdx s m i := Or.inr ⟨Or.inl hL.1, hin, hL.2⟩
      rw [if_pos hL, if_pos hL, if_pos ht]
      exact ⟨by simp [ht], rfl⟩
    · rw [if_neg hL, if_neg hL]
      by_cases hS : m.1 ≤ i ∧ i < m.2.1
      · have ht : touchIdx s m i := Or.inl hS
        rw [if_pos hS, if_pos hS, if_pos ht]
        exact ⟨by simp [ht], rfl⟩
      · have ht : ¬touchIdx s m i := by
          intro ht
          rcases ht with h | ⟨hadj, hlt, hsep⟩
          · exact hS h
          · rcases hadj with h | h
            · exact hL ⟨h, hsep⟩
            · exact hR ⟨h, hlt, hsep⟩
        rw [if_neg hS, if_neg hS, if_neg ht]
        exact ⟨by simp [ht], rfl⟩

theorem freezeFrom_length (s : List Char) :
    ∀ (ms : List WMatch) (wid : Nat) (st : List Bool × List (Option Nat)),
      (freezeFrom s wid ms st).1.length = st.1.length ∧
      (freezeFrom s wid ms st).2.length = st.2.length := by
  intro ms
  induction ms with
  | nil => exact fun wid st => ⟨rfl, rfl⟩
  | cons m rest ih =>
    intro wid st
    have h1 := freezeOne_length s wid m st
    have h2 := ih (wid + 1) (freezeOne s wid m st)
    show (freezeFrom s (wid + 1) rest (freezeOne s wid m st)).1.length = _ ∧
      (freezeFrom s (wid + 1) rest (freezeOne s wid m st)).2.length = _
    omega

theorem freezeFrom_frozen_iff (s : List Char) (i : Nat) (hin : i < s.length) :
    ∀ (ms : List WMatch) (wid : Nat) (st : List Bool × List (Option Nat)),
      st.1.length = s.length → st.2.length = s.length →
      ((freezeFrom s wid ms st).1.getD i false = true ↔
        (∃ m ∈ ms, touchIdx s m i) ∨ st.1.getD i false = true) := by
  intro ms
  induction ms with
  | nil =>
    intro wid st h1 h2
    simp [freezeFrom]
  | cons m rest ih =>
    intro wid st h1 h2
    have hone := freezeOne_getD s wid m st i (by omega) (by omega) hin
    have holen := freezeOne_length s wid m st
    show (freezeFrom s (wid + 1) rest (freezeOne s wid m st)).1.getD i false = true ↔ _
    rw [ih (wid + 1) (freezeOne s wid m st) (by omega) (by omega), hone.1]
    constructor
    · rintro (⟨m2, hm2, ht⟩ | ht | hst)
      · exact Or.inl ⟨m2, List.mem_cons_of_mem m hm2, ht⟩
      · exact Or.inl ⟨m, List.mem_cons_self m rest, ht⟩
      · exact Or.inr hst
    · rintro (⟨m2, hm2, ht⟩ | hst)
      · rcases List.mem_cons.mp hm2 with rfl | h
        · exact Or.inr (Or.inl ht)
        · exact Or.inl ⟨m2, h, ht⟩
      · exact Or.inr (Or.inr hst)

theorem freezeFrom_wordId_notouch (s : List Char) (i : Nat) (hin : i < s.length) :
    ∀ (ms : List WMatch) (wid : Nat) (st : List Bool × List (Option Nat)),
      st.1.length = s.length → st.2.length = s.length →
      (∀ m ∈ ms, ¬touchIdx s m i) →
      (freezeFrom s wid ms st).2.getD i none = st.2.getD i none := by
  intro ms
  induction ms with
  | nil => exact fun wid st _ _ _ => rfl
  | cons m rest ih =>
    intro wid st h1 h2 hno
    have hone := freezeOne_getD s wid m st i (by omega) (by omega) hin
    have holen := freezeOne_length s wid m st
    show (freezeFrom s (wid + 1) rest (freezeOne s wid m st)).2.getD i none = _
    rw [ih (wid + 1) (freezeOne s wid m st) (by omega) (by omega)
      (fun m2 hm2 => hno m2 (List.mem_cons_of_mem m hm2))]
    rw [hone.2, if_neg (hno m (List.mem_cons_self m rest))]

theorem freezeFrom_wordId_last (s : List Char) (i : Nat) (hin : i < s.length) :
    ∀ (ms : List WMatch) (k wid : Nat) (st : List Bool × List (Option Nat))
      (hk : k < ms.length),
      st.1.length = s.length → st.2.length = s.length →
      touchIdx s ms[k] i →
      (∀ k2 (hk2 : k2 < ms.length), k < k2 → ¬touchIdx s ms[k2] i) →
      (freezeFrom s wid ms st).2.getD i none = some (wid + k) := by
  intro ms
  induction ms with
  | nil =>
    intro k wid st hk
    exact absurd hk (by simp)
  | cons m rest ih =>
    intro k wid st hk h1 h2 htouch hlater
    have hone := freezeOne_getD s wid m st i (by omega) (by omega) hin
    have holen := freezeOne_length s wid m st
    show (freezeFrom s (wid + 1) rest (freezeOne s wid m st)).2.getD i none = _
    cases k with
    | zero =>
      have hmt : touchIdx s m i := by
        simpa using htouch
      have hnr : ∀ m2 ∈ rest, ¬touchIdx s m2 i := by
        intro m2 hm2
        obtain ⟨j, hj, hjget⟩ := List.getElem_of_mem hm2
        rw [← hjget]
        have := hlater (j + 1) (by simpa using Nat.succ_lt_succ hj) (by omega)
        simpa using this
      rw [freezeFrom_wordId_notouch s i hin rest (wid + 1) (freezeOne s wid m st)
        (by omega) (by omega) hnr]
      rw [hone.2, if_pos hmt]
      rfl
    | succ k2 =>
      have hk2 : k2 < rest.length := by simpa using Nat.lt_of_succ_lt_succ hk
      have htouch2 : touchIdx s rest[k2] i := by
        simpa using htouch
      have hlater2 : ∀ j (hj : j < rest.length), k2 < j → ¬touchIdx s rest[j] i := by
        intro j hj hgt
        have := hlater (j + 1) (by simpa using Nat.succ_lt_succ hj) (by omega)
        simpa using this
      rw [ih k2 (wid + 1) (freezeOne s wid m st) hk2 (by omega) (by omega) htouch2 hlater2]
      rw [show wid + 1 + k2 = wid + (k2 + 1) by omega]

/-! ## Claim C7: the lock set is exactly spans plus adjacent separators -/

/-- Claim C7: starting from the all-unlocked state (as the evolution loop
does), a cell is locked after `freeze_flags_with_adjacent_spaces` iff it
lies inside some selected match's span, or it is the cell directly before a
match's start or directly after its end and holds a separator — so a letter
cell adjacent to a match is never locked by adjacency.  Moreover on the
worked example (word set `{cat, dog}`, `min_block = 3`, sequence
`"cat dog"`) exactly the cells `{0, 1, 2, 3, 4, 5, 6}` are locked. -/
theorem c7_freeze_flags_iff :
    (∀ (s : List Char) (ms : List WMatch),
      (∀ m ∈ ms, m.1 ≤ m.2.1 ∧ m.2.1 ≤ s.length) →
      ∀ i, ((freeze_flags_with_adjacent_spaces s (List.replicate s.length false)
          (List.replicate s.length none) ms).1.getD i false = true ↔
        ∃ m ∈ ms, touchIdx s m i)) ∧
    (freeze_flags_with_adjacent_spaces catdogL (List.replicate 7 false)
      (List.replicate 7 none) (find_word_matches catdogL wsCD 3)).1 =
      List.replicate 7 true := by
  constructor
  · intro s ms hms i
    by_cases hin : i < s.length
    · unfold freeze_flags_with_adjacent_spaces
      rw [freezeFrom_frozen_iff s i hin ms 0
        (List.replicate s.length false, List.replicate s.length none)
        (by simp) (by simp)]
      rw [getD_replicate]
      simp
    · constructor
      · intro h
        exfalso
        have hlen := freezeFrom_length s ms 0
          (List.replicate s.length false, List.replicate s.length none)
        unfold freeze_flags_with_adjacent_spaces at h
        rw [getD_of_length_le (by simp at hlen ⊢; omega) false] at h
        exact Bool.noConfusion h
      · rintro ⟨m, hm, ht⟩
        rcases ht with hspan | ⟨_, hlt, _⟩
        · have := hms m hm
          omega
        · omega
  · decide

/-! ## Claim C10: a separator between two matches gets the later group id -/

/-- Claim C10: when a separator cell sits directly adjacent to two distinct
selected matches (under the detector's guarantees: pairwise-disjoint
nonempty spans none of which contains the cell), each match's adjacency pass
overwrites the separator's `word_id` unconditionally, so the cell ends up
with the group id of whichever adjacent match occurs later in the sorted
match list; for word set `{cat, dog}` and `"cat dog"`, the separator at
index 3 gets the group id of `dog` (id 1), not `cat`. -/
theorem c10_later_match_wins :
    (∀ (s : List Char) (ms : List WMatch) (i a b : Nat)
      (ha : a < ms.length) (hb : b < ms.length),
      a < b →
      ms.Pairwise spanDisjoint →
      (∀ m ∈ ms, m.1 < m.2.1) →
      (∀ m ∈ ms, ¬(m.1 ≤ i ∧ i < m.2.1)) →
      i < s.length → s.getD i ' ' = ' ' →
      adjTouch ms[a] i → adjTouch ms[b] i →
      (freeze_flags_with_adjacent_spaces s (List.replicate s.length false)
        (List.replicate s.length none) ms).2.getD i none = some b) ∧
    (find_word_matches catdogL wsCD 3 = [(0, 3, catL), (4, 7, dogL)] ∧
      (freeze_flags_with_adjacent_spaces catdogL (List.replicate 7 false)
        (List.replicate 7 none) (find_word_matches catdogL wsCD 3)).2.getD 3 none
        = some 1) := by
  constructor
  · intro s ms i a b ha hb hab hpw hne hnospan hin hsep hta htb
    have hpair : ∀ (p q : Nat) (hp : p < ms.length) (hq : q < ms.length), p < q →
        spanDisjoint ms[p] ms[q] := by
      rw [List.pairwise_iff_getElem] at hpw
      exact fun p q hp hq hpq => hpw p q hp hq hpq
    have hgoal : (freezeFrom s 0 ms
        (List.replicate s.length false, List.replicate s.length none)).2.getD i none
        = some (0 + b) := by
      apply freezeFrom_wordId_last s i hin ms b 0
        (List.replicate s.length false, List.replicate s.length none) hb
        (by simp) (by simp)
      · exact Or.inr ⟨htb, hin, hsep⟩
      · intro k2 hk2 hbk2 htouch
        rcases htouch with hspan | ⟨hadj, _, _⟩
        · exact hnospan ms[k2] (List.getElem_mem hk2) hspan
        · have hd_ab := hpair a b ha hb hab
          have hd_ak2 := hpair a k2 ha hk2 (by omega)
          have hd_bk2 := hpair b k2 hb hk2 hbk2
          have hne_a := hne ms[a] (List.getElem_mem ha)
          have hne_b := hne ms[b] (List.getElem_mem hb)
          have hne_k2 := hne ms[k2] (List.getElem_mem hk2)
          unfold spanDisjoint at hd_ab hd_ak2 hd_bk2
          unfold adjTouch at hta htb
          omega
    unfold freeze_flags_with_adjacent_spaces
    rw [hgoal, Nat.zero_add]
  · exact ⟨by decide, by decide⟩

/-- Witness for C7 at a concrete input. -/
theorem c7_witness :
    (∀ m ∈ find_word_matches catdogL wsCD 3, m.1 ≤ m.2.1 ∧ m.2.1 ≤ catdogL.length) ∧
    ((freeze_flags_with_adjacent_spaces catdogL (List.replicate catdogL.length false)
        (List.replicate catdogL.length none) (find_word_matches catdogL wsCD 3)).1.getD 3
        false = true ↔ ∃ m ∈ find_word_matches catdogL wsCD 3, touchIdx catdogL m 3) :=
  ⟨by decide,
    c7_freeze_flags_iff.1 catdogL (find_word_matches catdogL wsCD 3) (by decide) 3⟩

/-! ## Helper lemmas: the initial construction -/

theorem leftRun_congr : ∀ (i : Nat) {s1 s2 : List Char},
    (∀ j, j < i → s1.getD j ' ' = s2.getD j ' ') → leftRun s1 i = leftRun s2 i := by
  intro i
  induction i with
  | zero => intro s1 s2 _; rfl
  | succ j ih =>
    intro s1 s2 h
    show (if s1.getD j ' ' = ' ' then 0 else leftRun s1 j + 1) =
      (if s2.getD j ' ' = ' ' then 0 else leftRun s2 j + 1)
    rw [h j (by omega), ih (fun k hk => h k (by omega))]

theorem leftRun_pos {s : List Char} {j : Nat} (h : 1 ≤ leftRun s (j + 1)) :
    s.getD j ' ' ≠ ' ' := by
  intro hsep
  have h0 : leftRun s (j + 1) = 0 := by
    show (if s.getD j ' ' = ' ' then 0 else leftRun s j + 1) = 0
    rw [if_pos hsep]
  omega

theorem getD_default_eq {α : Type} {l : List α} {i : Nat} (h : i < l.length) (d1 d2 : α) :
    l.getD i d1 = l.getD i d2 := by
  rw [List.getD_eq_getElem?_getD, List.getD_eq_getElem?_getD, List.getElem?_eq_getElem h]
  rfl

theorem buildStep_inv (n mb : Nat) (letters : Nat → Char) (spaceDraw : Nat → Bool)
    (hmb : 1 ≤ mb) (hl : ∀ k, letters k ∈ LETTER_ALPHABET) (chars : List Char)
    (hlt : chars.length < n) (hinv : BuildInv n mb chars) :
    (buildStep n mb letters spaceDraw chars).length = chars.length + 1 ∧
    BuildInv n mb (buildStep n mb letters spaceDraw chars) := by
  obtain ⟨hhead, hadj, hsp⟩ := hinv
  unfold buildStep
  by_cases h0 : chars.length = 0
  · rw [if_pos h0]
    have hc : chars = [] := List.length_eq_zero.mp h0
    subst hc
    refine ⟨by simp, ?_, ?_, ?_⟩
    · intro _
      have : (([] : List Char) ++ [letters 0]).getD 0 ' ' = letters 0 := by simp
      rw [this]
      exact alphabet_nonspace (hl 0)
    · intro p hp
      simp at hp
    · intro p hp hsep
      exfalso
      simp at hp
      subst hp
      have : (([] : List Char) ++ [letters 0]).getD 0 ' ' = letters 0 := by simp
      rw [this] at hsep
      exact alphabet_nonspace (hl 0) hsep
  · rw [if_neg h0]
    split
    · rename_i hcond
      simp only [Bool.and_eq_true, decide_eq_true_eq] at hcond
      obtain ⟨⟨hlss, hrem⟩, _⟩ := hcond
      have hlen1 : 1 ≤ chars.length := by omega
      have hprev : chars.getD (chars.length - 1) ' ' ≠ ' ' := by
        apply leftRun_pos
        rw [show chars.length - 1 + 1 = chars.length by omega]
        omega
      refine ⟨by simp, ?_, ?_, ?_⟩
      · intro _
        rw [getD_append_one, if_pos (by omega)]
        exact hhead (by omega)
      · intro p hp hpair
        rw [List.length_append, List.length_singleton] at hp
        obtain ⟨h1, h2⟩ := hpair
        by_cases hpe : p + 1 = chars.length
        · rw [getD_append_one, if_pos (by omega)] at h1
          rw [show p = chars.length - 1 by omega] at h1
          exact hprev h1
        · rw [getD_append_one, if_pos (by omega)] at h1
          rw [getD_append_one, if_pos (by omega)] at h2
          exact hadj p (by omega) ⟨h1, h2⟩
      · intro p hp hpsep
        rw [List.length_append, List.length_singleton] at hp
        by_cases hpe : p = chars.length
        · subst hpe
          constructor
          · have hcongr : leftRun (chars ++ [SPACE_CHAR]) chars.length =
                leftRun chars chars.length :=
              leftRun_congr chars.length (fun j hj => by
                rw [getD_append_one, if_pos (by omega)])
            rw [hcongr]
            exact hlss
          · omega
        · have hplt : p < chars.length := by omega
          rw [getD_append_one, if_pos hplt] at hpsep
          have hfacts := hsp p hplt hpsep
          constructor
          · have hcongr : leftRun (chars ++ [SPACE_CHAR]) p = leftRun chars p :=
              leftRun_congr p (fun j hj => by rw [getD_append_one, if_pos (by omega)])
            rw [hcongr]
            exact hfacts.1
          · exact hfacts.2
    · refine ⟨by simp, ?_, ?_, ?_⟩
      · intro _
        rw [getD_append_one, if_pos (by omega)]
        exact hhead (by omega)
      · intro p hp hpair
        rw [List.length_append, List.length_singleton] at hp
        obtain ⟨h1, h2⟩ := hpair
        by_cases hpe : p + 1 = chars.length
        · rw [getD_append_one, if_neg (by omega), if_pos (by omega)] at h2
          exact alphabet_nonspace (hl chars.length) h2
        · rw [getD_append_one, if_pos (by omega)] at h1
          rw [getD_append_one, if_pos (by omega)] at h2
          exact hadj p (by omega) ⟨h1, h2⟩
      · intro p hp hpsep
        rw [List.length_append, List.length_singleton] at hp
        by_cases hpe : p = chars.length
        · exfalso
          subst hpe
          rw [getD_append_one, if_neg (by omega), if_pos rfl] at hpsep
          exact alphabet_nonspace (hl chars.length) hpsep
        · have hplt : p < chars.length := by omega
          rw [getD_append_one, if_pos hplt] at hpsep
          have hfacts := hsp p hplt hpsep
          constructor
          · have hcongr : leftRun (chars ++ [letters chars.length]) p = leftRun chars p :=
              leftRun_congr p (fun j hj => by rw [getD_append_one, if_pos (by omega)])
            rw [hcongr]
            exact hfacts.1
          · exact hfacts.2

theorem buildLoop_inv (n mb : Nat) (letters : Nat → Char) (spaceDraw : Nat → Bool)
    (hmb : 1 ≤ mb) (hl : ∀ k, letters k ∈ LETTER_ALPHABET) :
    ∀ (fuel : Nat) (chars : List Char), chars.length + fuel = n → BuildInv n mb chars →
      (buildLoop n mb letters spaceDraw fuel chars).length = n ∧
      BuildInv n mb (buildLoop n mb letters spaceDraw fuel chars) := by
  intro fuel
  induction fuel with
  | zero =>
    intro chars hlen hinv
    refine ⟨?_, hinv⟩
    show chars.length = n
    omega
  | succ f ih =>
    intro chars hlen hinv
    have hlt : chars.length < n := by omega
    have hstep := buildStep_inv n mb letters spaceDraw hmb hl chars hlt hinv
    have hslen := hstep.1
    have hrec := ih (buildStep n mb letters spaceDraw chars) (by omega) hstep.2
    show (if chars.length < n then
        buildLoop n mb letters spaceDraw f (buildStep n mb letters spaceDraw chars)
      else chars).length = n ∧
      BuildInv n mb (if chars.length < n then
        buildLoop n mb letters spaceDraw f (buildStep n mb letters spaceDraw chars)
      else chars)
    rw [if_pos hlt]
    exact hrec

/-! ## Claim C8: the initial construction satisfies the invariants -/

/-- Counterexample to claim C8 as stated: with `N = 1 ≥ 1` and
`min_block = 2` (the claim quantifies over every `min_block`), the result
`"a"` has a maximal letter run of length `1 < 2`, violating the third
invariant; and with `min_block = 0` the construction can even emit adjacent
separators. -/
theorem c8_counterexample :
    build_initial_string 1 2 (fun _ => 'a') (fun _ => false) = ['a'] ∧
    validSeqB 2 ['a'] = false ∧
    build_initial_string 4 0 (fun _ => 'a') (fun _ => true) = ['a', ' ', ' ', 'a'] ∧
    noAdjSepB ['a', ' ', ' ', 'a'] = false :=
  ⟨by decide, by decide, by decide, by decide⟩

/-- Claim C8 (amended: additionally `1 ≤ min_block ≤ N`, which the stated
claim's unrestricted `min_block` fails — see the counterexample):
`build_initial_string` returns a string of length exactly `N` satisfying
all three structural invariants, under every possible sequence of random
draws. -/
theorem c8_build_initial_valid (n mb : Nat) (letters : Nat → Char) (spaceDraw : Nat → Bool)
    (hmb : 1 ≤ mb) (hn : mb ≤ n) (hl : ∀ k, letters k ∈ LETTER_ALPHABET) :
    (build_initial_string n mb letters spaceDraw).length = n ∧
    validSeqB mb (build_initial_string n mb letters spaceDraw) = true := by
  have hloop := buildLoop_inv n mb letters spaceDraw hmb hl n [] (by simp)
    ⟨fun h => absurd h (by simp), fun p hp => absurd hp (by simp),
      fun p hp => absurd hp (by simp)⟩
  have hlen := hloop.1
  have hhead := hloop.2.1
  have hadj := hloop.2.2.1
  have hsp := hloop.2.2.2
  have hn1 : 1 ≤ n := by omega
  have htrail : (buildLoop n mb letters spaceDraw n []).getD (n - 1) ' ' ≠ ' ' := by
    intro hsep
    have := hsp (n - 1) (by omega) hsep
    omega
  have hfix : buildFinish n letters (buildLoop n mb letters spaceDraw n []) =
      buildLoop n mb letters spaceDraw n [] := by
    unfold buildFinish
    rw [if_neg, List.take_of_length_le (by omega)]
    rw [hlen, getD_default_eq (by omega) 'a' ' ']
    exact htrail
  have hstruct : StructOk mb (buildLoop n mb letters spaceDraw n []) := by
    refine ⟨fun _ => hhead (by omega), ?_, ?_, ?_⟩
    · intro _
      rw [hlen]
      exact htrail
    · intro p hp
      exact hadj p (by omega)
    · intro a b hrun
      obtain ⟨hab, hbl, hbody, hleftB, hrightB⟩ := hrun
      rw [hlen] at hbl
      by_cases hbn : b = n
      · by_cases ha0 : a = 0
        · omega
        · rcases hleftB with h | hsep
          · exact absurd h ha0
          · rw [nonSepB_eq_false] at hsep
            have := hsp (a - 1) (by omega) hsep
            omega
      · rw [nonSepB_eq_false] at hrightB
        have hfacts := hsp b (by omega) hrightB
        have hlr : leftRun (buildLoop n mb letters spaceDraw n []) b = b - a := by
          apply leftRun_eq_of _ a
          · rcases hleftB with h | hsep
            · exact Or.inl h
            · exact Or.inr (nonSepB_eq_false.mp hsep)
          · omega
          · intro j h1 h2
            exact nonSepB_eq_true.mp (hbody j h1 h2)
        omega
  unfold build_initial_string
  rw [hfix]
  exact ⟨hlen, validSeqB_iff.mpr hstruct⟩

/-- Witness for the amended C8 at a concrete input. -/
theorem c8_witness :
    (1 ≤ 1 ∧ 1 ≤ 3 ∧ (∀ k : Nat, 'a' ∈ LETTER_ALPHABET)) ∧
    validSeqB 1 (build_initial_string 3 1 (fun _ => 'a') (fun _ => true)) = true :=
  ⟨⟨by decide, by decide, fun _ => by decide⟩,
    (c8_build_initial_valid 3 1 (fun _ => 'a') (fun _ => true) (by decide) (by decide)
      (fun _ => show 'a' ∈ LETTER_ALPHABET by decide)).2⟩

/-! ## Claim C6: the termination check -/

/-- Claim C6: for every string of letters and spaces, word set and
`min_block ≥ 1`, `all_tokens_valid` returns true iff the string has at
least one maximal lowercase-letter run of length at least `min_block` and
every such run is a member of the word set; in particular it is false
whenever there is no such run. -/
theorem c6_all_tokens_valid_iff (s : List Char) (ws : List (List Char)) (mb : Nat)
    (hmb : 1 ≤ mb) (hchars : ∀ c ∈ s, azB c = true ∨ c = ' ') :
    all_tokens_valid s ws mb = true ↔
      (∃ a b, IsMaxRun azB s a b ∧ mb ≤ b - a) ∧
      (∀ a b, IsMaxRun azB s a b → mb ≤ b - a → tokenOf s a b ∈ ws) := by
  unfold all_tokens_valid
  simp only [Bool.and_eq_true, Bool.not_eq_true', List.all_eq_true, decide_eq_true_eq]
  constructor
  · rintro ⟨hne, hall⟩
    have hcne : candidateRuns azB s mb ≠ [] := by
      intro hnil
      rw [hnil] at hne
      exact Bool.noConfusion hne
    obtain ⟨p, hp⟩ := List.exists_mem_of_ne_nil _ hcne
    have hp2 := mem_candidateRuns.mp (show (p.1, p.2) ∈ candidateRuns azB s mb by
      simpa using hp)
    refine ⟨⟨p.1, p.2, hp2.1, hp2.2⟩, ?_⟩
    intro a b hrun hlen
    apply hall
    exact List.mem_map_of_mem _ (mem_candidateRuns.mpr ⟨hrun, hlen⟩)
  · rintro ⟨⟨a, b, hrun, hlen⟩, hall⟩
    constructor
    · have hmem : (a, b) ∈ candidateRuns azB s mb := mem_candidateRuns.mpr ⟨hrun, hlen⟩
      have : tokenOf s a b ∈ (candidateRuns azB s mb).map fun ab => tokenOf s ab.1 ab.2 :=
        List.mem_map_of_mem _ hmem
      rcases hh : ((candidateRuns azB s mb).map fun ab => tokenOf s ab.1 ab.2) with _ | _
      · rw [hh] at this
        exact absurd this (List.not_mem_nil _)
      · rw [hh]
        rfl
    · intro t ht
      obtain ⟨ab, hab, rfl⟩ := List.mem_map.mp ht
      have hab2 := mem_candidateRuns.mp (show (ab.1, ab.2) ∈ candidateRuns azB s mb by
        simpa using hab)
      exact hall ab.1 ab.2 hab2.1 hab2.2

/-- Witness for C6 at a concrete input. -/
theorem c6_witness :
    (1 ≤ 3 ∧ ∀ c ∈ catdogL, azB c = true ∨ c = ' ') ∧
    ((∃ a b, IsMaxRun azB catdogL a b ∧ 3 ≤ b - a) ∧
      (∀ a b, IsMaxRun azB catdogL a b → 3 ≤ b - a → tokenOf catdogL a b ∈ wsCD)) :=
  ⟨⟨by decide, by decide⟩,
    (c6_all_tokens_valid_iff catdogL wsCD 3 (by decide) (by decide)).mp (by decide)⟩

/-- Witness for C10 at a concrete input. -/
theorem c10_witness :
    (0 < (find_word_matches catdogL wsCD 3).length ∧
      1 < (find_word_matches catdogL wsCD 3).length) ∧
    (freeze_flags_with_adjacent_spaces catdogL
      (List.replicate catdogL.length false) (List.replicate catdogL.length none)
      (find_word_matches catdogL wsCD 3)).2.getD 3 none = some 1 :=
  ⟨⟨by decide, by decide⟩,
    c10_later_match_wins.1 catdogL (find_word_matches catdogL wsCD 3) 3 0 1
      (by decide) (by decide) (by decide) (by decide) (by decide) (by decide)
      (by decide) (by decide) (by decide) (by decide)⟩

/-! ## Helper lemmas: membership in the selected matches -/

theorem greedySelect_subset : ∀ (l acc : List WMatch) (x : WMatch),
    x ∈ greedySelect l acc → x ∈ acc ∨ x ∈ l := by
  intro l
  induction l with
  | nil => exact fun acc x hx => Or.inl hx
  | cons m rest ih =>
    intro acc x hx
    unfold greedySelect at hx
    split at hx
    · rcases ih acc x hx with h | h
      · exact Or.inl h
      · exact Or.inr (List.mem_cons_of_mem m h)
    · rcases ih (acc ++ [m]) x hx with h | h
      · rcases List.mem_append.mp h with h2 | h2
        · exact Or.inl h2
        · exact Or.inr (List.mem_cons.mpr (Or.inl (List.mem_singleton.mp h2)))
      · exact Or.inr (List.mem_cons_of_mem m h)

theorem greedySelect_mem_of : ∀ (l acc : List WMatch) (m : WMatch),
    m ∈ l → (∀ x ∈ l, x = m ∨ ¬sharesCell m x) → (∀ x ∈ acc, x = m ∨ ¬sharesCell m x) →
    m ∈ greedySelect l acc := by
  intro l
  induction l with
  | nil =>
    intro acc m hm
    exact absurd hm (List.not_mem_nil m)
  | cons x rest ih =>
    intro acc m hm hl hacc
    unfold greedySelect
    split
    · rename_i hany
      rcases List.mem_cons.mp hm with rfl | hm2
      · -- the head is our match and something in `acc` overlaps it:
        -- that occupant must be the match itself
        rw [List.any_eq_true] at hany
        obtain ⟨c, hc, hover⟩ := hany
        obtain ⟨j, hj1, hj2, hj3, hj4⟩ := spanOverlapB_iff.mp hover
        rcases hacc c hc with rfl | hdisj
        · exact greedySelect_mem_acc rest acc c hc
        · exact absurd ⟨j, hj1, hj2, hj3, hj4⟩ hdisj
      · exact ih acc m hm2 (fun y hy => hl y (List.mem_cons_of_mem x hy)) hacc
    · rcases List.mem_cons.mp hm with heq | hm2
      · rw [← heq]
        exact greedySelect_mem_acc rest (acc ++ [m]) m
          (List.mem_append_right acc (List.mem_singleton.mpr rfl))
      · apply ih (acc ++ [x]) m hm2 (fun y hy => hl y (List.mem_cons_of_mem x hy))
        intro y hy
        rcases List.mem_append.mp hy with h | h
        · exact hacc y h
        · rw [List.mem_singleton.mp h]
          exact hl x (List.mem_cons_self x rest)

theorem mem_matchCandidates {s : List Char} {ws : List (List Char)} {mb a b : Nat}
    {t : List Char} :
    (a, b, t) ∈ matchCandidates s ws mb ↔
      IsMaxRun azB s a b ∧ mb ≤ b - a ∧ boundedOkB s a b = true ∧
      t = tokenOf s a b ∧ t ∈ ws := by
  unfold matchCandidates
  rw [List.mem_filterMap]
  constructor
  · rintro ⟨ab, hab, hif⟩
    split at hif
    · rename_i hc
      simp only [Bool.and_eq_true, decide_eq_true_eq] at hc
      injection hif with h1
      simp only [Prod.mk.injEq] at h1
      obtain ⟨h1a, h1b, h1t⟩ := h1
      subst h1a
      subst h1b
      have hab2 : (ab.1, ab.2) ∈ candidateRuns azB s mb := hab
      have hrun := mem_candidateRuns.mp hab2
      exact ⟨hrun.1, hrun.2, hc.1, h1t.symm, h1t ▸ hc.2⟩
    · exact absurd hif (by simp)
  · rintro ⟨hrun, hlen, hbound, ht, htws⟩
    refine ⟨(a, b), mem_candidateRuns.mpr ⟨hrun, hlen⟩, ?_⟩
    rw [if_pos]
    · rw [← ht]
    · simp only [Bool.and_eq_true, decide_eq_true_eq]
      exact ⟨hbound, ht ▸ htws⟩

/-! ## Claim C2: locked matches persist and are re-selected -/

/-- Claim C2: one generation of the evolution loop, as `main` wires it up:
the matches of `s` are detected, the lock flags are derived from them
starting from the all-unlocked state, and `mutate_once` produces the next
string `s2`.  Every selected match `(a, b, t)` of `s` keeps all its cell
values in `s2`, and `(a, b, t)` is again among the selected matches of
`s2` — the lock is self-reinforcing, for every possible sequence of random
draws. -/
theorem c2_lock_self_reinforcing (s s2 : List Char) (ws : List (List Char)) (mb : Nat)
    (trigger : Nat → Bool) (shuffle : Nat → List Char) (fb : Nat → Char)
    (a b : Nat) (t : List Char) (ms : List WMatch) (fz : List Bool)
    (wi : List (Option Nat))
    (hms : ms = find_word_matches s ws mb)
    (hm : (a, b, t) ∈ ms)
    (hfz : (fz, wi) = freeze_flags_with_adjacent_spaces s (List.replicate s.length false)
      (List.replicate s.length none) ms)
    (hs2 : s2 = mutate_once s fz wi mb trigger shuffle fb) :
    (∀ j, a ≤ j → j < b → s2.getD j ' ' = s.getD j ' ') ∧
    (a, b, t) ∈ find_word_matches s2 ws mb := by
  -- the selected match is a bounded candidate run of `s`
  have hcand : (a, b, t) ∈ matchCandidates s ws mb := by
    rw [hms] at hm
    unfold find_word_matches at hm
    rcases greedySelect_subset _ [] _ hm with h | h
    · exact absurd h (List.not_mem_nil _)
    · exact (List.mem_insertionSort matchRel).mp h
  obtain ⟨hrun, hlen, hbound, ht, htws⟩ := mem_matchCandidates.mp hcand
  obtain ⟨hab, hbl, hbody, _, _⟩ := hrun
  have hfzc : fz = (freeze_flags_with_adjacent_spaces s (List.replicate s.length false)
      (List.replicate s.length none) ms).1 := congrArg Prod.fst hfz
  -- the lock flags cover the span and its separator borders
  have hfrozen : ∀ j, j < s.length → touchIdx s (a, b, t) j → fz.getD j false = true := by
    intro j hj htj
    rw [hfzc]
    unfold freeze_flags_with_adjacent_spaces
    rw [freezeFrom_frozen_iff s j hj ms 0
      (List.replicate s.length false, List.replicate s.length none) (by simp) (by simp)]
    exact Or.inl ⟨(a, b, t), hm, htj⟩
  have hkeep : ∀ j, j < s.length → touchIdx s (a, b, t) j → s2.getD j ' ' = s.getD j ' ' := by
    intro j hj htj
    rw [hs2]
    exact mutate_once_getD_frozen (hfrozen j hj htj)
  have hspan : ∀ j, a ≤ j → j < b → s2.getD j ' ' = s.getD j ' ' := by
    intro j h1 h2
    exact hkeep j (by omega) (Or.inl ⟨h1, h2⟩)
  have hs2len : s2.length = s.length := by
    rw [hs2]
    exact mutate_once_length s fz wi mb trigger shuffle fb
  -- boundary separators of the match are also preserved
  simp only [boundedOkB, Bool.and_eq_true, Bool.or_eq_true, beq_iff_eq] at hbound
  have hleftSep : a ≠ 0 → s2.getD (a - 1) ' ' = ' ' := by
    intro ha0
    have hsep : s.getD (a - 1) ' ' = ' ' := by
      rcases hbound.1 with h | h
      · exact absurd h ha0
      · exact h
    rw [hkeep (a - 1) (by omega) (Or.inr ⟨Or.inl (by omega), by omega, hsep⟩)]
    exact hsep
  have hrightSep : b ≠ s.length → s2.getD b ' ' = ' ' := by
    intro hbn
    have hsep : s.getD b ' ' = ' ' := by
      rcases hbound.2 with h | h
      · exact absurd h hbn
      · exact h
    rw [hkeep b (by omega) (Or.inr ⟨Or.inr rfl, by omega, hsep⟩)]
    exact hsep
  -- the span is again a bounded maximal run of `s2` with the same token
  have hrun2 : IsMaxRun azB s2 a b := by
    refine ⟨hab, by omega, ?_, ?_, ?_⟩
    · intro j h1 h2
      rw [hspan j h1 h2]
      exact hbody j h1 h2
    · by_cases ha0 : a = 0
      · exact Or.inl ha0
      · refine Or.inr ?_
        rw [hleftSep ha0]
        exact azB_space
    · by_cases hbn : b = s.length
      · rw [getD_of_length_le (by omega) ' ']
        exact azB_space
      · rw [hrightSep hbn]
        exact azB_space
  have htok : tokenOf s2 a b = tokenOf s a b := by
    unfold tokenOf
    apply List.map_congr_left
    intro j hj
    rw [List.mem_range'_1] at hj
    exact hspan j hj.1 (by omega)
  have hbound2 : boundedOkB s2 a b = true := by
    unfold boundedOkB
    simp only [Bool.and_eq_true, Bool.or_eq_true, beq_iff_eq]
    constructor
    · by_cases ha0 : a = 0
      · exact Or.inl ha0
      · exact Or.inr (hleftSep ha0)
    · by_cases hbn : b = s.length
      · exact Or.inl (by omega)
      · exact Or.inr (hrightSep hbn)
  have hcand2 : (a, b, t) ∈ matchCandidates s2 ws mb :=
    mem_matchCandidates.mpr ⟨hrun2, hlen, hbound2, by rw [htok]; exact ht, htws⟩
  refine ⟨hspan, ?_⟩
  unfold find_word_matches
  apply greedySelect_mem_of _ [] (a, b, t)
    ((List.mem_insertionSort matchRel).mpr hcand2)
  · -- any other candidate of `s2` overlapping the span is the match itself
    intro x hx
    have hxc := (List.mem_insertionSort matchRel).mp hx
    by_cases hshare : sharesCell (a, b, t) x
    · left
      obtain ⟨j, hj1, hj2, hj3, hj4⟩ := hshare
      obtain ⟨x1, x2, x3⟩ := x
      obtain ⟨hxrun, _, _, hxt, _⟩ := mem_matchCandidates.mp hxc
      obtain ⟨rfl, rfl⟩ := maxRun_unique hrun2 hxrun hj1 hj2 hj3 hj4
      rw [show x3 = t from by rw [hxt, htok, ← ht]]
    · exact Or.inr hshare
  · intro x hx
    exact absurd hx (List.not_mem_nil x)

/-- Witness for C2 at a concrete input. -/
theorem c2_witness :
    (0, 3, catL) ∈ find_word_matches catdogL wsCD 3 ∧
    (0, 3, catL) ∈ find_word_matches
      (mutate_once catdogL
        (freeze_flags_with_adjacent_spaces catdogL (List.replicate catdogL.length false)
          (List.replicate catdogL.length none) (find_word_matches catdogL wsCD 3)).1
        (freeze_flags_with_adjacent_spaces catdogL (List.replicate catdogL.length false)
          (List.replicate catdogL.length none) (find_word_matches catdogL wsCD 3)).2
        3 (fun _ => true) (fun _ => mutationCandidates) (fun _ => 'q')) wsCD 3 :=
  ⟨by decide,
    (c2_lock_self_reinforcing catdogL
      (mutate_once catdogL
        (freeze_flags_with_adjacent_spaces catdogL (List.replicate catdogL.length false)
          (List.replicate catdogL.length none) (find_word_matches catdogL wsCD 3)).1
        (freeze_flags_with_adjacent_spaces catdogL (List.replicate catdogL.length false)
          (List.replicate catdogL.length none) (find_word_matches catdogL wsCD 3)).2
        3 (fun _ => true) (fun _ => mutationCandidates) (fun _ => 'q'))
      wsCD 3 (fun _ => true) (fun _ => mutationCandidates) (fun _ => 'q') 0 3 catL
      (find_word_matches catdogL wsCD 3)
      (freeze_flags_with_adjacent_spaces catdogL (List.replicate catdogL.length false)
        (List.replicate catdogL.length none) (find_word_matches catdogL wsCD 3)).1
      (freeze_flags_with_adjacent_spaces catdogL (List.replicate catdogL.length false)
        (List.replicate catdogL.length none) (find_word_matches catdogL wsCD 3)).2
      rfl (by decide) rfl rfl).2⟩

end LetterMixer
